import Mathlib

/-!
Shallow embedding of `src/server/services/luaProcessor.ts` (the core of the
chameleon-code repository): a bidirectional Lua source-text transformer.

JavaScript strings are modelled as `List Nat` of UTF-16 code units; every
regex pass of the source is embedded as an explicit left-to-right scanner with
the same leftmost/greedy semantics as the JS `String.replace(/…/g, …)` and
`RegExp.exec` loops it mirrors.  All partial JS operations are modelled with
their total ECMAScript semantics (`parseInt` yields NaN — here `none` — on a
non-numeric token, `String.fromCharCode` applies ToUint16, …), so nothing in
the embedded core can fail.  Recursions that consume a data-dependent number
of characters take an explicit fuel argument (always instantiated with more
than the length of the input), keeping every definition kernel-executable.
-/

namespace LuaProc

/-- Code units of a string literal (exact for strings whose characters are
below U+10000, which covers every literal appearing in the source). -/
def lit (s : String) : List Nat := s.data.map Char.toNat

/-- JS `\w` test: `[A-Za-z0-9_]`. -/
def isWordU (u : Nat) : Bool :=
  (48 ≤ u && u ≤ 57) || (65 ≤ u && u ≤ 90) || (97 ≤ u && u ≤ 122) || u == 95

/-- JS `\s` test (WhiteSpace ∪ LineTerminator of ECMAScript). -/
def isWsU (u : Nat) : Bool :=
  u == 9 || u == 10 || u == 11 || u == 12 || u == 13 || u == 32 ||
  u == 160 || u == 5760 || (8192 ≤ u && u ≤ 8202) || u == 8232 ||
  u == 8233 || u == 8239 || u == 8287 || u == 12288 || u == 65279

/-- JS `\d` test. -/
def isDigitU (u : Nat) : Bool := 48 ≤ u && u ≤ 57

/-- JS `[a-fA-F0-9]` test. -/
def isHexU (u : Nat) : Bool :=
  (48 ≤ u && u ≤ 57) || (97 ≤ u && u ≤ 102) || (65 ≤ u && u ≤ 70)

/-- JS `[a-zA-Z_]` test (identifier start in the source's patterns). -/
def isIdentStartU (u : Nat) : Bool :=
  (65 ≤ u && u ≤ 90) || (97 ≤ u && u ≤ 122) || u == 95

/-- ECMAScript LineTerminator (the characters `.` does not match). -/
def isLineTermU (u : Nat) : Bool :=
  u == 10 || u == 13 || u == 8232 || u == 8233

/-- `String.prototype.toLowerCase`, restricted to the ASCII identifiers the
source's scanner produces (on `[A-Za-z0-9_]` it is exactly A-Z ↦ a-z). -/
def toLowerU (u : Nat) : Nat := if 65 ≤ u ∧ u ≤ 90 then u + 32 else u

/-- The `reserved` array of `isReservedWord` (luaProcessor.ts lines 231-238),
verbatim. -/
def reservedWords : List (List Nat) :=
  [lit "and", lit "break", lit "do", lit "else", lit "elseif", lit "end",
   lit "false", lit "for", lit "function", lit "if", lit "in", lit "local",
   lit "nil", lit "not", lit "or", lit "repeat", lit "return", lit "then",
   lit "true", lit "until", lit "while",
   lit "game", lit "workspace", lit "script", lit "print", lit "wait",
   lit "spawn", lit "delay", lit "Players", lit "LocalPlayer",
   lit "UserInputService", lit "RunService", lit "TweenService"]

/-- `isReservedWord` (luaProcessor.ts line 230):
`reserved.includes(word.toLowerCase())`. -/
def isReservedWord (word : List Nat) : Bool :=
  reservedWords.contains (word.map toLowerU)

/-- Lowercase hex digit of a value below 16 (JS `Number.prototype.toString(16)`
digit alphabet). -/
def hexDigitU (n : Nat) : Nat := if n < 10 then 48 + n else 87 + n

/-- Fueled core of `toString(16)`. -/
def toHexF : Nat → Nat → List Nat
  | 0, _ => []
  | fuel + 1, n =>
    if n < 16 then [hexDigitU n] else toHexF fuel (n / 16) ++ [hexDigitU (n % 16)]

/-- JS `n.toString(16)` for a natural number: lowercase hex digits, no
leading zeros (except `"0"`). -/
def toHex (n : Nat) : List Nat := toHexF (n + 1) n

/-- Decimal digit code. -/
def decDigitU (n : Nat) : Nat := 48 + n

/-- Fueled core of decimal rendering. -/
def toDecF : Nat → Nat → List Nat
  | 0, _ => []
  | fuel + 1, n =>
    if n < 10 then [decDigitU n] else toDecF fuel (n / 10) ++ [decDigitU (n % 10)]

/-- JS `String(n)` / template interpolation for a natural number. -/
def toDec (n : Nat) : List Nat := toDecF (n + 1) n

/-- `padStart(4, '0')`. -/
def padTo4 (l : List Nat) : List Nat := List.replicate (4 - l.length) 48 ++ l

/-- The `prefixes` array of `generateObfuscatedName` (line 183). -/
def namePrefixes : List (List Nat) := [lit "_0x", lit "_", lit "__", lit "___"]

/-- `generateObfuscatedName` (luaProcessor.ts lines 182-187). -/
def generateObfuscatedName (index : Nat) : List Nat :=
  namePrefixes.getD (index % 4) [] ++ padTo4 (toHex (index + 1))

/-- JS `String.prototype.split(sep)` for a one-unit separator: splits at every
occurrence, keeping empty pieces. -/
def splitOnU (sep : Nat) : List Nat → List (List Nat)
  | [] => [[]]
  | c :: tl =>
    if c = sep then [] :: splitOnU sep tl
    else
      match splitOnU sep tl with
      | [] => [[c]]
      | h :: t => (c :: h) :: t

/-- JS `String.prototype.trim` (both ends, same whitespace set as above). -/
def trimU (l : List Nat) : List Nat :=
  ((l.dropWhile isWsU).reverse.dropWhile isWsU).reverse

/-- Value of a decimal digit run. -/
def decValue (l : List Nat) : Nat := l.foldl (fun a u => a * 10 + (u - 48)) 0

/-- Value of a hex digit run (JS digit alphabet, both cases). -/
def hexValue (l : List Nat) : Nat :=
  l.foldl
    (fun a u =>
      a * 16 + (if u ≤ 57 then u - 48 else if u ≤ 70 then u - 55 else u - 87)) 0

/-- Unsigned part of ECMAScript `parseInt` with no explicit radix: an `0x`/`0X`
head selects hex, otherwise decimal; the longest digit run counts and an empty
run means NaN (`none`). -/
def parseNoSign (l : List Nat) : Option Nat :=
  if l.take 2 = [48, 120] ∨ l.take 2 = [48, 88] then
    let ds := (l.drop 2).takeWhile isHexU
    if ds = [] then none else some (hexValue ds)
  else
    let ds := l.takeWhile isDigitU
    if ds = [] then none else some (decValue ds)

/-- ECMAScript `parseInt(s)`: skip whitespace, optional sign, digits; NaN is
`none`. -/
def parseIntJS (l : List Nat) : Option Int :=
  let t := l.dropWhile isWsU
  if t.take 1 = [43] then (parseNoSign (t.drop 1)).map (fun n => (n : Int))
  else if t.take 1 = [45] then (parseNoSign (t.drop 1)).map (fun n => -(n : Int))
  else (parseNoSign t).map (fun n => (n : Int))

/-- One unit of `String.fromCharCode`: ToUint16, with NaN (`none`) mapping
to 0. -/
def fromCharCodeU (x : Option Int) : Nat :=
  match x with
  | none => 0
  | some z => (z % (65536 : Int)).toNat

/-- JS `Array.prototype.join(sep)` on strings. -/
def joinWith (sep : Nat → List Nat) : List (List Nat) → List Nat
  | [] => []
  | [x] => x
  | x :: y :: t => x ++ sep 0 ++ joinWith sep (y :: t)

/-- Join with a constant separator string. -/
def joinSep (sep : List Nat) (ls : List (List Nat)) : List Nat :=
  joinWith (fun _ => sep) ls

/-- Surrogate tests for `Array.from` on a string. -/
def isHighSurr (u : Nat) : Bool := 55296 ≤ u && u ≤ 56319

/-- Low (trailing) surrogate test. -/
def isLowSurr (u : Nat) : Bool := 56320 ≤ u && u ≤ 57343

/-- JS `Array.from(string)`: iterate by code points, i.e. pair up an adjacent
high+low surrogate, otherwise one unit per element. -/
def arrayFromU : List Nat → List (List Nat)
  | [] => []
  | [u] => [[u]]
  | u :: v :: tl2 =>
    if isHighSurr u && isLowSurr v then [u, v] :: arrayFromU tl2
    else [u] :: arrayFromU (v :: tl2)

/-- `charCodeAt(0)` of an `Array.from` element (elements are nonempty). -/
def charCode0 (elem : List Nat) : Nat := elem.headD 0

/-- First-occurrence dedup: `[...new Set(xs)]`. -/
def dedupKeepFirst (l : List (List Nat)) : List (List Nat) :=
  (l.foldl (fun acc x => if acc.contains x then acc else acc ++ [x]) [])

/-- Strip an exact literal from the head of the input. -/
def stripPre : List Nat → List Nat → Option (List Nat)
  | [], l => some l
  | _ :: _, [] => none
  | p :: ps, c :: tl => if p = c then stripPre ps tl else none

/-!  Generic drivers for the JS regex loops.

`replS` is `String.replace(/…/g, cb)`: scan left to right; at each position
offer the suffix (plus the preceding character, for `\b` assertions) to the
pattern's matcher; on a match emit the callback's replacement, carry the
callback state, and resume right after the matched region of the *original*
string; otherwise copy one unit.  `matchF` is the same scan collecting
captures (the `exec` loops and `String.match(/…/g)`). -/

/-- Global-replace driver (fueled; fuel above the input length is enough). -/
def replS {σ : Type} (tryFn : σ → Option Nat → List Nat → Option (List Nat × Nat × σ)) :
    Nat → σ → Option Nat → List Nat → List Nat × σ
  | 0, s, _, l => (l, s)
  | _ + 1, s, _, [] => ([], s)
  | fuel + 1, s, prev, c :: tl =>
    match tryFn s prev (c :: tl) with
    | some (rep, k, s') =>
      let k' := max k 1
      let r := replS tryFn fuel s' (some ((c :: tl).getD (k' - 1) 0)) ((c :: tl).drop k')
      (rep ++ r.1, r.2)
    | none =>
      let r := replS tryFn fuel s (some c) tl
      (c :: r.1, r.2)

/-- Global-match driver (fueled): collect one capture per match. -/
def matchF {α : Type} (tryFn : Option Nat → List Nat → Option (α × Nat)) :
    Nat → Option Nat → List Nat → List α
  | 0, _, _ => []
  | _ + 1, _, [] => []
  | fuel + 1, prev, c :: tl =>
    match tryFn prev (c :: tl) with
    | some (a, k) =>
      let k' := max k 1
      a :: matchF tryFn fuel (some ((c :: tl).getD (k' - 1) 0)) ((c :: tl).drop k')
    | none => matchF tryFn fuel (some c) tl

/-- Word-ness of the character preceding the scan position (start of string
counts as non-word). -/
def prevWord (prev : Option Nat) : Bool :=
  match prev with
  | none => false
  | some u => isWordU u

/-- Match of `\bNAME\b` at the head of `l` (the source builds this regex from
an `escapeRegExp`-ed identifier, so `NAME` is matched literally): both `\b`
assertions compare word-ness on the two sides. -/
def wwAt (name : List Nat) (pw : Bool) (l : List Nat) : Bool :=
  match name with
  | [] => false
  | c :: _ =>
    (pw != isWordU c) && name.isPrefixOf l &&
      (match name.getLast?, l.drop name.length with
       | some e, [] => isWordU e
       | some e, d :: _ => isWordU e != isWordU d
       | none, _ => false)

/-- Matcher wrapper for the whole-word regex of one substitution. -/
def rwTry (name rep : List Nat) : Unit → Option Nat → List Nat →
    Option (List Nat × Nat × Unit) :=
  fun s prev l =>
    if wwAt name (prevWord prev) l then some (rep, name.length, s) else none

/-- `text.replace(new RegExp("\\b" + name + "\\b", "g"), rep)`. -/
def replaceWord (name rep text : List Nat) : List Nat :=
  (replS (rwTry name rep) (text.length + 1) () none text).1

/-- Occurrence test for a whole-word match of `name` anywhere in `text`
(the spec's "search for its original whole-word form"). -/
def hasWWAux (name : List Nat) : Bool → List Nat → Bool
  | _, [] => false
  | pw, c :: tl => wwAt name pw (c :: tl) || hasWWAux name (isWordU c) tl

/-- Whole-word occurrence anywhere in `text`. -/
def hasWholeWord (name text : List Nat) : Bool := hasWWAux name false text

/-!  Pattern matchers, one per regex of the source.  Each returns the
captures it needs plus the total number of units the match consumes. -/

/-- Matcher of `/\b(local\s+)([a-zA-Z_][a-zA-Z0-9_]*)/` at the head:
capture 2 (the declared name) and the consumed length. -/
def matchLocal (pw : Bool) (l : List Nat) : Option (List Nat × Nat) :=
  if pw then none
  else
    match stripPre (lit "local") l with
    | none => none
    | some rest =>
      let w := rest.takeWhile isWsU
      if w = [] then none
      else
        match rest.drop w.length with
        | [] => none
        | c :: tl =>
          if isIdentStartU c then
            let ident := c :: tl.takeWhile isWordU
            some (ident, 5 + w.length + ident.length)
          else none

/-- Matcher of `/\bfunction\s+([a-zA-Z_][a-zA-Z0-9_]*)/` at the head. -/
def matchFunc (pw : Bool) (l : List Nat) : Option (List Nat × Nat) :=
  if pw then none
  else
    match stripPre (lit "function") l with
    | none => none
    | some rest =>
      let w := rest.takeWhile isWsU
      if w = [] then none
      else
        match rest.drop w.length with
        | [] => none
        | c :: tl =>
          if isIdentStartU c then
            let ident := c :: tl.takeWhile isWordU
            some (ident, 8 + w.length + ident.length)
          else none

/-- Matcher of `/string\.char\(([^)]+)\)/` at the head: the argument capture
and the consumed length. -/
def matchCharCall (l : List Nat) : Option (List Nat × Nat) :=
  match stripPre (lit "string.char(") l with
  | none => none
  | some rest =>
    let args := rest.takeWhile (fun u => u != 41)
    if args = [] then none
    else
      match rest.drop args.length with
      | 41 :: _ => some (args, 12 + args.length + 1)
      | _ => none

/-- Decoded replacement of the single-call form (lines 124-133): split the
argument list on commas, `parseInt` each trimmed token (NaN for a non-numeric
token), `String.fromCharCode` the results, and wrap in double quotes. -/
def decodeCharArgs (args : List Nat) : List Nat :=
  [34] ++ ((splitOnU 44 args).map fun t => fromCharCodeU (parseIntJS (trimU t))) ++ [34]

/-- Matcher of
`/string\.char\((\d+)\)\s*\.\.\s*string\.char\((\d+)\)/` at the head. -/
def matchPairCall (l : List Nat) : Option ((List Nat × List Nat) × Nat) :=
  match stripPre (lit "string.char(") l with
  | none => none
  | some r1 =>
    let d1 := r1.takeWhile isDigitU
    if d1 = [] then none
    else
      match stripPre [41] (r1.drop d1.length) with
      | none => none
      | some r2 =>
        let w1 := r2.takeWhile isWsU
        match stripPre [46, 46] (r2.drop w1.length) with
        | none => none
        | some r3 =>
          let w2 := r3.takeWhile isWsU
          match stripPre (lit "string.char(") (r3.drop w2.length) with
          | none => none
          | some r4 =>
            let d2 := r4.takeWhile isDigitU
            if d2 = [] then none
            else
              match stripPre [41] (r4.drop d2.length) with
              | none => none
              | some _ =>
                some ((d1, d2),
                  12 + d1.length + 1 + w1.length + 2 + w2.length +
                    12 + d2.length + 1)

/-- Matcher of `/_0x[a-fA-F0-9]+/` at the head: the whole token. -/
def matchHexVar (l : List Nat) : Option (List Nat × Nat) :=
  match stripPre (lit "_0x") l with
  | none => none
  | some rest =>
    let run := rest.takeWhile isHexU
    if run = [] then none
    else some (lit "_0x" ++ run, 3 + run.length)

/-- Matcher of a literal, then `\s*` (greedy), then a second literal (the
three dead-code removal patterns have this shape). -/
def matchLitWsLit (a b l : List Nat) : Option Nat :=
  match stripPre a l with
  | none => none
  | some rest =>
    let w := rest.takeWhile isWsU
    match stripPre b (rest.drop w.length) with
    | none => none
    | some _ => some (a.length + w.length + b.length)

/-- Number of units up to and including the last `\n` of a run. -/
def upToLastNl (run : List Nat) : Nat :=
  run.length - (run.reverse.takeWhile (fun u => u != 10)).length

/-- Matcher of `/\n\s*\n\s*\n/` at the head.  The pattern is pure whitespace,
so a match lives inside the maximal `\s`-run starting here; it exists iff that
run holds at least three `\n`, and greediness makes it end right after the
run's last `\n`. -/
def matchWs3 (l : List Nat) : Option Nat :=
  match l with
  | 10 :: _ =>
    let run := l.takeWhile isWsU
    if 3 ≤ run.count 10 then some (upToLastNl run) else none
  | _ => none

/-- Content scan of a quoted literal after the opening quote, for
`/'([^'\\]*(\\.[^'\\]*)*)'/` (and the double-quote twin): runs of plain
units, backslash-escape pairs (the `.` excludes line terminators), then the
closing quote.  Returns the capture and the units consumed after the opening
quote (closing quote included). -/
def quoteContent (q : Nat) : Nat → List Nat → Option (List Nat × Nat)
  | 0, _ => none
  | fuel + 1, l =>
    let run := l.takeWhile (fun u => u != q && u != 92)
    match l.drop run.length with
    | [] => none
    | u :: rest =>
      if u = q then some (run, run.length + 1)
      else
        match rest with
        | [] => none
        | e :: rest2 =>
          if isLineTermU e then none
          else
            (quoteContent q fuel rest2).map
              (fun r => (run ++ [92, e] ++ r.1, run.length + 2 + r.2))

/-- Matcher of a full quoted literal at the head (both quotes consumed). -/
def matchQuoteLit (q : Nat) (l : List Nat) : Option (List Nat × Nat) :=
  match l with
  | [] => none
  | u :: rest =>
    if u = q then (quoteContent q (rest.length + 1) rest).map (fun r => (r.1, r.2 + 1))
    else none

/-- `content.match(/.{1,2}/g) || []`: two-unit chunks, greedy, skipping line
terminators (which `.` does not match). -/
def chunk12 : List Nat → List (List Nat)
  | [] => []
  | [u] => if isLineTermU u then [] else [[u]]
  | u :: v :: tl2 =>
    if isLineTermU u then chunk12 (v :: tl2)
    else if isLineTermU v then [u] :: chunk12 tl2
    else [u, v] :: chunk12 tl2

/-- The `obfuscationLevel` enum. -/
inductive Level
  | light
  | medium
  | heavy
deriving DecidableEq, Repr

/-- The settings record of `ProcessRequest['settings']`; absent fields are
`none` and resolved by the `??` defaults of `obfuscateCode`. -/
structure Settings where
  variableRenaming : Option Bool
  stringEncoding : Option Bool
  controlFlowObfuscation : Option Bool
  obfuscationLevel : Option Level
deriving DecidableEq, Repr

/-- The output record of the core. -/
structure ProcessResult where
  outputCode : List Nat
  variablesRenamed : Nat
  stringsEncoded : Nat
deriving DecidableEq, Repr

/-- The process-wide `Math.random()` source, abstracted to one oracle per
use-site shape: draw `n` is the n-th `Math.random()` call of the run;
`gt08 n` is `Math.random() > 0.8`, `mul10 n` feeds
`Math.floor(Math.random()*10)` (reduced mod 10), `pick5 n` feeds
`Math.floor(Math.random()*dummyPatterns.length)` (reduced mod 5). -/
structure RandomOracle where
  gt08 : Nat → Bool
  mul10 : Nat → Nat
  pick5 : Nat → Nat

/-- A fixed oracle (used for concrete runs whose settings draw nothing). -/
def oracle0 : RandomOracle :=
  { gt08 := fun _ => false, mul10 := fun _ => 0, pick5 := fun _ => 0 }

/-- One `string.char(…)` call for a list of codes. -/
def charCallOf (codes : List Nat) : List Nat :=
  lit "string.char(" ++ joinSep [44, 32] (codes.map toDec) ++ [41]

/-- `encodeString` (luaProcessor.ts lines 189-217).  Returns the emitted text
and the advanced random-draw counter (only `heavy` draws). -/
def encodeString (o : RandomOracle) (n : Nat) (content : List Nat) :
    Level → List Nat × Nat
  | Level.light =>
    (charCallOf ((arrayFromU content).map charCode0), n)
  | Level.medium =>
    (joinSep (lit " .. ")
      ((chunk12 content).map fun ch => charCallOf ((arrayFromU ch).map charCode0)), n)
  | Level.heavy =>
    let elems := arrayFromU content
    let pieces := (elems.enum.map fun p =>
      let code := charCode0 p.2
      let off := o.mul10 (n + p.1) % 10 + 1
      [40] ++ toDec (code + off) ++ lit " - " ++ toDec off ++ [41])
    (lit "string.char(" ++ joinSep [44, 32] pieces ++ [41], n + elems.length)

/-- The `dummyPatterns` array of `generateDummyCode` (lines 220-226). -/
def dummyPatterns : List (List Nat) :=
  [lit "if true then end", lit "while false do end", lit "for i = 1, 0 do end",
   lit "-- dummy comment", lit "local _ = nil"]

/-- `generateDummyCode` (lines 219-228), with draw index `n`. -/
def generateDummyCode (o : RandomOracle) (n : Nat) : List Nat :=
  dummyPatterns.getD (o.pick5 n % 5) []

/-- The declared-name collection loop over the `local` pattern
(lines 34-43): every scanned declaration name, in order, duplicates kept. -/
def localDeclNames (code : List Nat) : List (List Nat) :=
  matchF (fun prev l => matchLocal (prevWord prev) l) (code.length + 1) none code

/-- The declared-name collection loop over the `function` pattern
(lines 55-62). -/
def funcDeclNames (code : List Nat) : List (List Nat) :=
  matchF (fun prev l => matchFunc (prevWord prev) l) (code.length + 1) none code

/-- The `variables` map of `obfuscateCode` as an insertion-ordered
association list: a scanned name enters iff it is new and not reserved, paired
with `generateObfuscatedName(variables.size)`. -/
def obfVarPairs (code : List Nat) : List (List Nat × List Nat) :=
  (localDeclNames code).foldl
    (fun acc name =>
      if acc.any (fun p => p.1 == name) || isReservedWord name then acc
      else acc ++ [(name, generateObfuscatedName acc.length)])
    []

/-- The `functions` map of `obfuscateCode`: same construction, the generator
index continuing after the final `variables` size `vlen`. -/
def obfFunPairs (code : List Nat) (vlen : Nat) : List (List Nat × List Nat) :=
  (funcDeclNames code).foldl
    (fun acc name =>
      if acc.any (fun p => p.1 == name) || isReservedWord name then acc
      else acc ++ [(name, generateObfuscatedName (vlen + acc.length))])
    []

/-- The `forEach` substitution loops: apply every mapping to the whole text,
in insertion order. -/
def replaceAllWords (pairs : List (List Nat × List Nat)) (text : List Nat) : List Nat :=
  pairs.foldl (fun t p => replaceWord p.1 p.2 t) text

/-- The `variableRenaming` pass and its full pair list: the variable map,
then the function map continuing the index sequence. -/
def renamePairs (code : List Nat) : List (List Nat × List Nat) :=
  obfVarPairs code ++ obfFunPairs code (obfVarPairs code).length

/-- One string-encoding replace pass (the single- or double-quoted literal
pattern, lines 73-88): state is (strings-encoded counter, random counter);
a non-empty capture is encoded and counted, an empty literal is returned
unchanged and not counted. -/
def encodePass (o : RandomOracle) (level : Level) (q : Nat) (st : Nat × Nat)
    (text : List Nat) : List Nat × Nat × Nat :=
  let r := replS
    (fun (s : Nat × Nat) _ l =>
      match matchQuoteLit q l with
      | none => none
      | some (content, k) =>
        if content = [] then some (l.take k, k, s)
        else
          let e := encodeString o s.2 content level
          some (e.1, k, (s.1 + 1, e.2)))
    (text.length + 1) st none text
  (r.1, r.2)

/-- The control-flow pass body (lines 92-109): one `Math.random()` draw per
line; on success for a non-blank, non-comment line, one more draw picks the
dummy statement inserted after it. -/
def cfLines (o : RandomOracle) : Nat → List (List Nat) → List (List Nat) × Nat
  | n, [] => ([], n)
  | n, line :: rest =>
    let t := trimU line
    if o.gt08 n && !t.isEmpty && !(stripPre [45, 45] t).isSome then
      let r := cfLines o (n + 2) rest
      (line :: generateDummyCode o (n + 1) :: r.1, r.2)
    else
      let r := cfLines o (n + 1) rest
      (line :: r.1, r.2)

/-- Resolved `config.variableRenaming` (`settings?.variableRenaming ?? true`). -/
def resolvedVR (settings : Option Settings) : Bool :=
  (settings.bind Settings.variableRenaming).getD true

/-- Resolved `config.stringEncoding` (`?? true`). -/
def resolvedSE (settings : Option Settings) : Bool :=
  (settings.bind Settings.stringEncoding).getD true

/-- Resolved `config.controlFlowObfuscation` (`?? false`). -/
def resolvedCF (settings : Option Settings) : Bool :=
  (settings.bind Settings.controlFlowObfuscation).getD false

/-- Resolved `config.obfuscationLevel` (`?? 'medium'`). -/
def resolvedLevel (settings : Option Settings) : Level :=
  (settings.bind Settings.obfuscationLevel).getD Level.medium

/-- `obfuscateCode` (luaProcessor.ts lines 17-116). -/
def obfuscateCode (o : RandomOracle) (code : List Nat) (settings : Option Settings) :
    ProcessResult :=
  let vr := resolvedVR settings
  let se := resolvedSE settings
  let cf := resolvedCF settings
  let level := resolvedLevel settings
  let step1 :=
    if vr then
      let vp := obfVarPairs code
      let fp := obfFunPairs code vp.length
      (replaceAllWords fp (replaceAllWords vp code), vp.length + fp.length)
    else (code, 0)
  let step2 :=
    if se then
      let r1 := encodePass o level 39 (0, 0) step1.1
      let r2 := encodePass o level 34 r1.2 r1.1
      (r2.1, r2.2.1, r2.2.2)
    else (step1.1, 0, 0)
  let step3 :=
    if cf then (joinSep [10] (cfLines o step2.2.2 (splitOnU 10 step2.1)).1)
    else step2.1
  { outputCode := step3, variablesRenamed := step1.2, stringsEncoded := step2.2.1 }

/-- The single-call decode pass of `deobfuscateCode` (lines 124-133).  The
`try`/`catch` of the source: nothing inside the body can raise under
ECMAScript semantics (`parseInt` yields NaN, `String.fromCharCode` applies
ToUint16), so the catch branch — leave the match unchanged, do not count — is
unreachable and every match is replaced and counted. -/
def decodeCharStep (text : List Nat) : List Nat × Nat :=
  let r := replS
    (fun (cnt : Nat) _ l =>
      (matchCharCall l).map fun m => (decodeCharArgs m.1, m.2, cnt + 1))
    (text.length + 1) 0 none text
  (r.1, r.2)

/-- The pairwise-concatenation decode pass (lines 136-145). -/
def decodePairStep (text : List Nat) : List Nat × Nat :=
  let r := replS
    (fun (cnt : Nat) _ l =>
      (matchPairCall l).map fun m =>
        ([34, fromCharCodeU (parseIntJS m.1.1), fromCharCodeU (parseIntJS m.1.2), 34],
          m.2, cnt + 1))
    (text.length + 1) 0 none text
  (r.1, r.2)

/-- `code.match(/_0x[a-fA-F0-9]+/g) || []` (line 148). -/
def hexVarMatches (code : List Nat) : List (List Nat) :=
  matchF (fun _ l => matchHexVar l) (code.length + 1) none code

/-- The `commonNames` vocabulary (lines 151-156), verbatim. -/
def commonNames : List (List Nat) :=
  [lit "player", lit "character", lit "humanoid", lit "input", lit "data",
   lit "value", lit "result", lit "position", lit "rotation", lit "velocity",
   lit "force", lit "part", lit "model", lit "script", lit "service",
   lit "event", lit "connection", lit "gui", lit "frame", lit "button",
   lit "text", lit "health", lit "walkSpeed", lit "jumpPower", lit "camera",
   lit "mouse", lit "keyboard"]

/-- The positional renaming loop of `deobfuscateCode` (lines 158-165): the
n-th distinct generated-shape token is whole-word replaced by the n-th
vocabulary entry, counting once per replaced token; tokens beyond the
vocabulary are skipped. -/
def restoreNames (uniqueVars : List (List Nat)) (text : List Nat) : List Nat × Nat :=
  (uniqueVars.enum.foldl
    (fun acc p =>
      if p.1 < commonNames.length then
        (replaceWord p.2 (commonNames.getD p.1 []) acc.1, acc.2 + 1)
      else acc)
    (text, 0))

/-- One dead-code removal pass (`pattern → ''`). -/
def removePat (a b text : List Nat) : List Nat :=
  (replS
    (fun (s : Unit) _ l => (matchLitWsLit a b l).map fun k => ([], k, s))
    (text.length + 1) () none text).1

/-- The whitespace collapse pass (line 173): `/\n\s*\n\s*\n/g → "\n\n"`. -/
def collapseWs (text : List Nat) : List Nat :=
  (replS
    (fun (s : Unit) _ l => (matchWs3 l).map fun k => ([10, 10], k, s))
    (text.length + 1) () none text).1

/-- `deobfuscateCode` (luaProcessor.ts lines 118-180). -/
def deobfuscateCode (code : List Nat) : ProcessResult :=
  let r1 := decodeCharStep code
  let r2 := decodePairStep r1.1
  let uniqueVars := dedupKeepFirst (hexVarMatches code)
  let r3 := restoreNames uniqueVars r2.1
  let d4 := removePat (lit "if true then") (lit "end") r3.1
  let d5 := removePat (lit "while false do") (lit "end") d4
  let d6 := removePat (lit "for i = 1, 0 do") (lit "end") d5
  let d7 := collapseWs d6
  { outputCode := d7, variablesRenamed := r3.2, stringsEncoded := r1.2 + r2.2 }

/-- The request mode. -/
inductive Mode
  | obfuscate
  | deobfuscate
deriving DecidableEq, Repr

/-- The validated request the core receives. -/
structure ProcessRequest where
  inputCode : List Nat
  mode : Mode
  settings : Option Settings
deriving DecidableEq, Repr

/-- `processLuaCode` (luaProcessor.ts lines 9-15). -/
def processLuaCode (o : RandomOracle) (request : ProcessRequest) : ProcessResult :=
  match request.mode with
  | Mode.obfuscate => obfuscateCode o request.inputCode request.settings
  | Mode.deobfuscate => deobfuscateCode request.inputCode

/-!  Claim-side definitions: vocabulary taken from the specification's own
wording, used to state the properties (never used inside the embedded
engine itself). -/

/-- The distinct names of a scanned declaration list that are not reserved,
in first-occurrence order (`seen` holds names already encountered). -/
def distinctUnreserved (seen : List (List Nat)) : List (List Nat) → List (List Nat)
  | [] => []
  | n :: tl =>
    if seen.any (fun k => k == n) || isReservedWord n then distinctUnreserved seen tl
    else n :: distinctUnreserved (n :: seen) tl

/-- Existence of a match of a head-matcher at some position of the text. -/
def anyMatchB {α : Type} (tryFn : List Nat → Option α) : List Nat → Bool
  | [] => (tryFn []).isSome
  | c :: tl => (tryFn (c :: tl)).isSome || anyMatchB tryFn tl

/-- The text contains none of the deobfuscator's recognized obfuscation
idioms: no `string.char` decode form (either shape), no generated-shape
identifier, no recognized dead-code statement. -/
def noIdiomsB (s : List Nat) : Bool :=
  !anyMatchB matchCharCall s && !anyMatchB matchPairCall s &&
  !anyMatchB matchHexVar s &&
  !anyMatchB (matchLitWsLit (lit "if true then") (lit "end")) s &&
  !anyMatchB (matchLitWsLit (lit "while false do") (lit "end")) s &&
  !anyMatchB (matchLitWsLit (lit "for i = 1, 0 do") (lit "end")) s

/-- No adjacent high+low surrogate pair among the code units (every code
point of the string is below U+10000). -/
def pairFreeU : List Nat → Bool
  | [] => true
  | [_] => true
  | u :: v :: tl => !(isHighSurr u && isLowSurr v) && pairFreeU (v :: tl)

/-- Maximal runs of word characters of a text (fueled). -/
def wordRunsF : Nat → List Nat → List (List Nat)
  | 0, _ => []
  | _ + 1, [] => []
  | fuel + 1, c :: tl =>
    if isWordU c then
      ((c :: tl).takeWhile isWordU) :: wordRunsF fuel ((c :: tl).dropWhile isWordU)
    else wordRunsF fuel tl

/-- Maximal runs of word characters of a text. -/
def wordRuns (l : List Nat) : List (List Nat) := wordRunsF (l.length + 1) l

/-- Action of one whole-word substitution on a maximal word run. -/
def substRun (name rep : List Nat) (r : List Nat) : List Nat :=
  if r = name then rep else r

/-- Run-level characterization of one whole-word substitution (fueled): walk
the maximal word runs; a run equal to the name becomes the replacement, any
other text is kept. -/
def replaceWordSpecF (name rep : List Nat) : Nat → List Nat → List Nat
  | 0, l => l
  | _ + 1, [] => []
  | fuel + 1, c :: tl =>
    if isWordU c then
      substRun name rep ((c :: tl).takeWhile isWordU) ++
        replaceWordSpecF name rep fuel ((c :: tl).dropWhile isWordU)
    else c :: replaceWordSpecF name rep fuel tl

/-- Collapse of one maximal whitespace run: if it holds at least three `\n`,
the segment from its first to its last `\n` becomes exactly two `\n`. -/
def squashRun (w : List Nat) : List Nat :=
  if 3 ≤ w.count 10 then
    w.takeWhile (fun u => u != 10) ++ [10, 10] ++
      ((w.reverse.takeWhile (fun u => u != 10)).reverse)
  else w

/-- Structural normal form of the whitespace-collapse pass: squash every
maximal whitespace run (fueled). -/
def normWsF : Nat → List Nat → List Nat
  | 0, l => l
  | _ + 1, [] => []
  | fuel + 1, c :: tl =>
    if isWsU c then
      squashRun ((c :: tl).takeWhile isWsU) ++
        normWsF fuel ((c :: tl).dropWhile isWsU)
    else c :: normWsF fuel tl

/-- Structural normal form of the whitespace-collapse pass. -/
def normWs (l : List Nat) : List Nat := normWsF (l.length + 1) l

/-- The matcher/callback of the whitespace-collapse pass, named. -/
def ws3Try : Unit → Option Nat → List Nat → Option (List Nat × Nat × Unit) :=
  fun s _ l => (matchWs3 l).map fun k => ([10, 10], k, s)

/-- Relation between a text and any whitespace-collapsed form of it: units
are copied verbatim, except that a non-empty all-whitespace segment may be
replaced by exactly two newlines. -/
inductive CollRel : List Nat → List Nat → Prop
  | nil : CollRel [] []
  | copy (c : Nat) (s t : List Nat) : CollRel s t → CollRel (c :: s) (c :: t)
  | coll (w s t : List Nat) : (∀ u ∈ w, isWsU u = true) → w ≠ [] →
      CollRel s t → CollRel (w ++ s) (10 :: 10 :: t)

/-!  ## Theorems -/

theorem distinctUnreserved_congr :
    ∀ (tl s1 s2 : List (List Nat)),
      (∀ x, s1.any (fun k => k == x) = s2.any (fun k => k == x)) →
      distinctUnreserved s1 tl = distinctUnreserved s2 tl := by
  intro tl
  induction tl with
  | nil => intro s1 s2 _; rfl
  | cons m tl ih =>
    intro s1 s2 h
    simp only [distinctUnreserved, h m]
    by_cases hc : (s2.any (fun k => k == m) || isReservedWord m) = true
    · rw [if_pos hc, if_pos hc, ih s1 s2 h]
    · rw [if_neg hc, if_neg hc, ih (m :: s1) (m :: s2) (fun x => by
        simp only [List.any_cons, h x])]

theorem keys_fold (gf : List (List Nat × List Nat) → List Nat) :
    ∀ (names : List (List Nat)) (acc : List (List Nat × List Nat)),
      ((names.foldl
          (fun acc name =>
            if acc.any (fun p => p.1 == name) || isReservedWord name then acc
            else acc ++ [(name, gf acc)]) acc).map Prod.fst) =
        acc.map Prod.fst ++ distinctUnreserved (acc.map Prod.fst) names := by
  intro names
  induction names with
  | nil => intro acc; simp [distinctUnreserved]
  | cons n tl ih =>
    intro acc
    have hbr : ((acc.map Prod.fst).any (fun k => k == n)) =
        acc.any (fun p => p.1 == n) := by
      induction acc with
      | nil => rfl
      | cons p tl2 ih2 => simp only [List.map_cons, List.any_cons, ih2]
    by_cases hc : (acc.any (fun p => p.1 == n) || isReservedWord n) = true
    · simp only [List.foldl_cons, if_pos hc, distinctUnreserved, hbr, if_pos hc]
      exact ih acc
    · simp only [List.foldl_cons, if_neg hc, distinctUnreserved, hbr, if_neg hc]
      rw [ih (acc ++ [(n, gf acc)])]
      simp only [List.map_append, List.map_cons, List.map_nil]
      rw [distinctUnreserved_congr tl (acc.map Prod.fst ++ [n])
        (n :: acc.map Prod.fst) (fun x => by
          simp only [List.any_append, List.any_cons, List.any_nil,
            Bool.or_false, Bool.false_or, Bool.or_comm])]
      simp

theorem distinctUnreserved_not_reserved :
    ∀ (names seen : List (List Nat)) (x : List Nat),
      x ∈ distinctUnreserved seen names → isReservedWord x = false := by
  intro names
  induction names with
  | nil => intro seen x h; simp [distinctUnreserved] at h
  | cons n tl ih =>
    intro seen x h
    simp only [distinctUnreserved] at h
    by_cases hc : (seen.any (fun k => k == n) || isReservedWord n) = true
    · rw [if_pos hc] at h; exact ih seen x h
    · rw [if_neg hc] at h
      rcases List.mem_cons.mp h with rfl | hmem
      · rcases Bool.or_eq_false_iff.mp (Bool.eq_false_iff.mpr hc) with ⟨_, h2⟩
        exact h2
      · exact ih (n :: seen) x hmem

theorem obfVarPairs_keys (code : List Nat) :
    (obfVarPairs code).map Prod.fst =
      distinctUnreserved [] (localDeclNames code) := by
  have h := keys_fold (fun acc => generateObfuscatedName acc.length)
    (localDeclNames code) []
  simpa [obfVarPairs] using h

theorem obfFunPairs_keys (code : List Nat) (vlen : Nat) :
    (obfFunPairs code vlen).map Prod.fst =
      distinctUnreserved [] (funcDeclNames code) := by
  have h := keys_fold (fun acc => generateObfuscatedName (vlen + acc.length))
    (funcDeclNames code) []
  simpa [obfFunPairs] using h

/-- C10: the reserved-word test of the obfuscator is case-insensitive — any
identifier whose lowercased form appears in the fixed reserved list is never
entered into the run's identifier mapping (variable or function side), hence
never assigned an obfuscated name and never counted in `variablesRenamed`. -/
theorem c10_reserved_case_insensitive (code w : List Nat)
    (h : isReservedWord w = true) :
    w ∉ (renamePairs code).map Prod.fst := by
  intro hmem
  unfold renamePairs at hmem
  rw [List.map_append, obfVarPairs_keys, obfFunPairs_keys] at hmem
  rcases List.mem_append.mp hmem with hm | hm
  · rw [distinctUnreserved_not_reserved _ _ _ hm] at h; exact Bool.false_ne_true h
  · rw [distinctUnreserved_not_reserved _ _ _ hm] at h; exact Bool.false_ne_true h

/-- Witness for C10 at a concrete run: `Game` lowercases into the reserved
list, so `local Game = 1` maps nothing named `Game`. -/
theorem c10_witness :
    (lit "Game") ∉ (renamePairs (lit "local Game = 1")).map Prod.fst :=
  c10_reserved_case_insensitive (lit "local Game = 1") (lit "Game") (by decide)

/-- C5: with `variableRenaming`, `stringEncoding` and `controlFlowObfuscation`
all disabled, obfuscation is the identity on the source text. -/
theorem c5_identity (o : RandomOracle) (code : List Nat) (st : Settings)
    (hvr : st.variableRenaming = some false)
    (hse : st.stringEncoding = some false)
    (hcf : st.controlFlowObfuscation = some false)
    (_hne : code ≠ []) :
    (obfuscateCode o code (some st)).outputCode = code := by
  simp [obfuscateCode, resolvedVR, resolvedSE, resolvedCF, hvr, hse, hcf]

/-- Witness for C5 on a concrete non-empty script. -/
theorem c5_identity_witness :
    (obfuscateCode oracle0 (lit "local x = 1")
        (some ⟨some false, some false, some false, none⟩)).outputCode =
      lit "local x = 1" :=
  c5_identity oracle0 (lit "local x = 1")
    ⟨some false, some false, some false, none⟩ rfl rfl rfl (by decide)

/-- C8: both engines are total — for every request (and every behaviour of
the random source) the embedded core returns a `ProcessResult`.  Every
partial JS operation the source uses was modelled with its total ECMAScript
semantics (`parseInt` → NaN, `String.fromCharCode` → ToUint16, guarded array
indexing), so no reachable operation of the core can raise. -/
theorem c8_total (o : RandomOracle) (req : ProcessRequest) :
    (∃ r : ProcessResult, processLuaCode o req = r) ∧
    (∃ r : ProcessResult, obfuscateCode o req.inputCode req.settings = r) ∧
    (∃ r : ProcessResult, deobfuscateCode req.inputCode = r) :=
  ⟨⟨_, rfl⟩, ⟨_, rfl⟩, ⟨_, rfl⟩⟩

/-- C1 (counter-evaluation): on a `string.char` argument list holding the
non-numeric token `abc`, the deobfuscator does NOT leave the matched text
unchanged: `parseInt` yields NaN without raising, `String.fromCharCode`
turns it into the unit 0, the call is replaced by `"h\u0000"` and the
strings-encoded counter is incremented — the `catch` recovery path of the
source is unreachable. -/
theorem c1_decode_nonnumeric :
    deobfuscateCode (lit "string.char(104, abc)") =
      { outputCode := [34, 104, 0, 34], variablesRenamed := 0, stringsEncoded := 1 } := by
  decide

/-- C2 (counterexample): of the three tokens only `_0x0001` matches the
generated-identifier pattern `/_0x[a-fA-F0-9]+/`; `_0002` and `__0003` are
left unchanged, and `variablesRenamed` is 1, not 3. -/
theorem c2_counterexample :
    deobfuscateCode (lit "_0x0001 _0002 __0003") =
      { outputCode := lit "player _0002 __0003", variablesRenamed := 1,
        stringsEncoded := 0 } ∧
    (deobfuscateCode (lit "_0x0001 _0002 __0003")).variablesRenamed ≠ 3 := by
  constructor
  · decide
  · decide

/-- C2 (amended): the deobfuscator's token shape is `_0x` followed by hex
digits, so on this input exactly the token `_0x0001` is replaced — by the
first entry `player` of the vocabulary — and `variablesRenamed` is 1. -/
theorem c2_amended :
    (deobfuscateCode (lit "_0x0001 _0002 __0003")).outputCode =
      lit "player _0002 __0003" ∧
    (deobfuscateCode (lit "_0x0001 _0002 __0003")).variablesRenamed = 1 := by
  constructor
  · decide
  · decide

/-- C3 (counterexample): a source with zero local-variable declarations but
one function declaration yields `variablesRenamed = 1`, not 0 — function
names are counted by the same counter. -/
theorem c3_counterexample :
    (distinctUnreserved [] (localDeclNames (lit "function foo() end"))).length = 0 ∧
    (obfuscateCode oracle0 (lit "function foo() end")
        (some ⟨some true, some false, some false, none⟩)).variablesRenamed = 1 := by
  constructor
  · decide
  · decide

/-- C3 (amended): with renaming enabled (and string encoding disabled, as in
the claim's settings) `variablesRenamed` equals the number of distinct
non-reserved local-declaration names plus the number of distinct non-reserved
function-declaration names — once per unique name within each category, never
per occurrence. -/
theorem c3_amended (o : RandomOracle) (code : List Nat) (st : Option Settings)
    (hvr : resolvedVR st = true) (hse : resolvedSE st = false) :
    (obfuscateCode o code st).variablesRenamed =
      (distinctUnreserved [] (localDeclNames code)).length +
        (distinctUnreserved [] (funcDeclNames code)).length := by
  have hv : (obfVarPairs code).length =
      (distinctUnreserved [] (localDeclNames code)).length := by
    rw [← obfVarPairs_keys code, List.length_map]
  have hf : (obfFunPairs code
        (distinctUnreserved [] (localDeclNames code)).length).length =
      (distinctUnreserved [] (funcDeclNames code)).length := by
    rw [← obfFunPairs_keys code
      (distinctUnreserved [] (localDeclNames code)).length, List.length_map]
  simp [obfuscateCode, hvr, hse, hv, hf]

theorem toHexF_congr :
    ∀ (f1 f2 n : Nat), n < f1 → n < f2 → toHexF f1 n = toHexF f2 n := by
  intro f1
  induction f1 with
  | zero => intro f2 n h1 _; exact absurd h1 (Nat.not_lt_zero n)
  | succ f ih =>
    intro f2 n h1 h2
    cases f2 with
    | zero => exact absurd h2 (Nat.not_lt_zero n)
    | succ f2 =>
      simp only [toHexF]
      by_cases hn : n < 16
      · rw [if_pos hn, if_pos hn]
      · rw [if_neg hn, if_neg hn]
        have hlt : n / 16 < n := Nat.div_lt_self (by omega) (by omega)
        rw [ih f2 (n / 16) (by omega) (by omega)]

theorem hexValue_append_digit (l : List Nat) (d : Nat) :
    hexValue (l ++ [d]) =
      hexValue l * 16 + (if d ≤ 57 then d - 48 else if d ≤ 70 then d - 55 else d - 87) := by
  simp [hexValue, List.foldl_append]

theorem hexDigitU_val (m : Nat) (h : m < 16) :
    (if hexDigitU m ≤ 57 then hexDigitU m - 48
     else if hexDigitU m ≤ 70 then hexDigitU m - 55 else hexDigitU m - 87) = m := by
  unfold hexDigitU
  rcases Nat.lt_or_ge m 10 with hm | hm
  · rw [if_pos hm, if_pos (by omega)]; omega
  · rw [if_neg (Nat.not_lt.mpr hm), if_neg (by omega), if_neg (by omega)]; omega

theorem hexValue_toHexF : ∀ (f n : Nat), n < f → hexValue (toHexF f n) = n := by
  intro f
  induction f with
  | zero => intro n h; exact absurd h (Nat.not_lt_zero n)
  | succ f ih =>
    intro n h
    simp only [toHexF]
    by_cases hn : n < 16
    · rw [if_pos hn]
      show List.foldl _ 0 [hexDigitU n] = n
      simp only [List.foldl_cons, List.foldl_nil]
      rw [Nat.zero_mul, Nat.zero_add]
      exact hexDigitU_val n hn
    · rw [if_neg hn, hexValue_append_digit,
        ih (n / 16) (by
          have : n / 16 < n := Nat.div_lt_self (by omega) (by omega)
          omega),
        hexDigitU_val (n % 16) (Nat.mod_lt _ (by omega))]
      omega

theorem hexValue_toHex (n : Nat) : hexValue (toHex n) = n :=
  hexValue_toHexF (n + 1) n (Nat.lt_succ_self n)

theorem hexValue_replicate48 : ∀ (k : Nat) (l : List Nat),
    hexValue (List.replicate k 48 ++ l) = hexValue l := by
  intro k
  induction k with
  | zero => intro l; rfl
  | succ k ih =>
    intro l
    rw [List.replicate_succ, List.cons_append]
    have h48 : ∀ x : List Nat, hexValue (48 :: x) = hexValue x := by
      intro x
      simp [hexValue, List.foldl_cons]
    rw [h48, ih l]

theorem hexValue_padTo4 (l : List Nat) : hexValue (padTo4 l) = hexValue l :=
  hexValue_replicate48 (4 - l.length) l

theorem padTo4_toHex_inj (a b : Nat)
    (h : padTo4 (toHex a) = padTo4 (toHex b)) : a = b := by
  have h2 := congrArg hexValue h
  rwa [hexValue_padTo4, hexValue_padTo4, hexValue_toHex, hexValue_toHex] at h2

theorem toHexF_digits : ∀ (f n u : Nat), n < f → u ∈ toHexF f n →
    (48 ≤ u ∧ u ≤ 57) ∨ (97 ≤ u ∧ u ≤ 102) := by
  intro f
  induction f with
  | zero => intro n u h _; exact absurd h (Nat.not_lt_zero n)
  | succ f ih =>
    intro n u h hu
    simp only [toHexF] at hu
    by_cases hn : n < 16
    · rw [if_pos hn] at hu
      have : u = hexDigitU n := by simpa using hu
      subst this
      unfold hexDigitU
      rcases Nat.lt_or_ge n 10 with hm | hm
      · rw [if_pos hm]; omega
      · rw [if_neg (by omega)]; omega
    · rw [if_neg hn] at hu
      rcases List.mem_append.mp hu with h1 | h1
      · exact ih (n / 16) u (by
          have : n / 16 < n := Nat.div_lt_self (by omega) (by omega)
          omega) h1
      · have : u = hexDigitU (n % 16) := by simpa using h1
        subst this
        unfold hexDigitU
        have h16 : n % 16 < 16 := Nat.mod_lt _ (by omega)
        rcases Nat.lt_or_ge (n % 16) 10 with hm | hm
        · rw [if_pos hm]; omega
        · rw [if_neg (by omega)]; omega

theorem padTo4_digits (n u : Nat) (h : u ∈ padTo4 (toHex n)) :
    (48 ≤ u ∧ u ≤ 57) ∨ (97 ≤ u ∧ u ≤ 102) := by
  unfold padTo4 at h
  rcases List.mem_append.mp h with h1 | h1
  · have := List.eq_of_mem_replicate h1
    omega
  · exact toHexF_digits (n + 1) n u (Nat.lt_succ_self n) h1

theorem pad_no95 (n : Nat) : (95 : Nat) ∉ padTo4 (toHex n) := by
  intro h
  rcases padTo4_digits n 95 h with h1 | h1 <;> omega

theorem pad_no120 (n : Nat) : (120 : Nat) ∉ padTo4 (toHex n) := by
  intro h
  rcases padTo4_digits n 120 h with h1 | h1 <;> omega

theorem padTo4_len (l : List Nat) : 4 ≤ (padTo4 l).length := by
  simp [padTo4]
  omega

theorem namePrefix0 : namePrefixes.getD 0 [] = [95, 48, 120] := by decide

theorem namePrefix1 : namePrefixes.getD 1 [] = [95] := by decide

theorem namePrefix2 : namePrefixes.getD 2 [] = [95, 95] := by decide

theorem namePrefix3 : namePrefixes.getD 3 [] = [95, 95, 95] := by decide

theorem generateObfuscatedName_inj (i j : Nat)
    (h : generateObfuscatedName i = generateObfuscatedName j) : i = j := by
  have hi4 : i % 4 = 0 ∨ i % 4 = 1 ∨ i % 4 = 2 ∨ i % 4 = 3 := by omega
  have hj4 : j % 4 = 0 ∨ j % 4 = 1 ∨ j % 4 = 2 ∨ j % 4 = 3 := by omega
  unfold generateObfuscatedName at h
  rcases hi4 with hi | hi | hi | hi <;> rcases hj4 with hj | hj | hj | hj
  · rw [hi, hj, namePrefix0] at h
    have h2 := List.append_cancel_left h
    have := padTo4_toHex_inj (i + 1) (j + 1) h2
    omega
  · rw [hi, hj, namePrefix0, namePrefix1] at h
    simp only [List.cons_append, List.nil_append, List.cons.injEq, true_and] at h
    exact absurd (h ▸ (by simp : (120 : Nat) ∈
      48 :: 120 :: padTo4 (toHex (i + 1)))) (pad_no120 (j + 1))
  · rw [hi, hj, namePrefix0, namePrefix2] at h
    simp only [List.cons_append, List.nil_append, List.cons.injEq] at h
    omega
  · rw [hi, hj, namePrefix0, namePrefix3] at h
    simp only [List.cons_append, List.nil_append, List.cons.injEq] at h
    omega
  · rw [hi, hj, namePrefix1, namePrefix0] at h
    simp only [List.cons_append, List.nil_append, List.cons.injEq, true_and] at h
    exact absurd (h.symm ▸ (by simp : (120 : Nat) ∈
      48 :: 120 :: padTo4 (toHex (j + 1)))) (pad_no120 (i + 1))
  · rw [hi, hj, namePrefix1] at h
    have h2 := List.append_cancel_left h
    have := padTo4_toHex_inj (i + 1) (j + 1) h2
    omega
  · rw [hi, hj, namePrefix1, namePrefix2] at h
    simp only [List.cons_append, List.nil_append, List.cons.injEq, true_and] at h
    exact absurd (h ▸ (by simp : (95 : Nat) ∈
      95 :: padTo4 (toHex (j + 1)))) (pad_no95 (i + 1))
  · rw [hi, hj, namePrefix1, namePrefix3] at h
    simp only [List.cons_append, List.nil_append, List.cons.injEq, true_and] at h
    exact absurd (h ▸ (by simp : (95 : Nat) ∈
      95 :: 95 :: padTo4 (toHex (j + 1)))) (pad_no95 (i + 1))
  · rw [hi, hj, namePrefix2, namePrefix0] at h
    simp only [List.cons_append, List.nil_append, List.cons.injEq] at h
    omega
  · rw [hi, hj, namePrefix2, namePrefix1] at h
    simp only [List.cons_append, List.nil_append, List.cons.injEq, true_and] at h
    exact absurd (h.symm ▸ (by simp : (95 : Nat) ∈
      95 :: padTo4 (toHex (i + 1)))) (pad_no95 (j + 1))
  · rw [hi, hj, namePrefix2] at h
    have h2 := List.append_cancel_left h
    have := padTo4_toHex_inj (i + 1) (j + 1) h2
    omega
  · rw [hi, hj, namePrefix2, namePrefix3] at h
    simp only [List.cons_append, List.nil_append, List.cons.injEq, true_and] at h
    exact absurd (h ▸ (by simp : (95 : Nat) ∈
      95 :: padTo4 (toHex (j + 1)))) (pad_no95 (i + 1))
  · rw [hi, hj, namePrefix3, namePrefix0] at h
    simp only [List.cons_append, List.nil_append, List.cons.injEq] at h
    omega
  · rw [hi, hj, namePrefix3, namePrefix1] at h
    simp only [List.cons_append, List.nil_append, List.cons.injEq, true_and] at h
    exact absurd (h.symm ▸ (by simp : (95 : Nat) ∈
      95 :: 95 :: padTo4 (toHex (i + 1)))) (pad_no95 (j + 1))
  · rw [hi, hj, namePrefix3, namePrefix2] at h
    simp only [List.cons_append, List.nil_append, List.cons.injEq, true_and] at h
    exact absurd (h.symm ▸ (by simp : (95 : Nat) ∈
      95 :: padTo4 (toHex (i + 1)))) (pad_no95 (j + 1))
  · rw [hi, hj, namePrefix3] at h
    have h2 := List.append_cancel_left h
    have := padTo4_toHex_inj (i + 1) (j + 1) h2
    omega

/-- C9 (counterexample): at index 65535 the suffix is the five-digit hex
`10000` of 65536, not a zero-padded four-digit representation — `padStart`
only enforces a minimum width. -/
theorem c9_counterexample :
    generateObfuscatedName 65535 = lit "___10000" ∧
    ((generateObfuscatedName 65535).drop 3).length ≠ 4 := by
  constructor
  · decide
  · decide

/-- C9 (amended): the Name Generator is a pure function of its index; the
name is one of four fixed prefixes selected by `index mod 4` followed by the
hex representation of `index + 1` zero-padded to a minimum of four digits
(longer once `index + 1` exceeds 0xffff); distinct indices always yield
distinct names. -/
theorem c9_amended :
    (∀ i j : Nat, generateObfuscatedName i = generateObfuscatedName j → i = j) ∧
    (∀ i : Nat,
      generateObfuscatedName i =
        namePrefixes.getD (i % 4) [] ++ padTo4 (toHex (i + 1)) ∧
      4 ≤ (padTo4 (toHex (i + 1))).length) :=
  ⟨generateObfuscatedName_inj, fun i => ⟨rfl, padTo4_len (toHex (i + 1))⟩⟩

/-- Witness for C9 (amended): the injectivity implication applied at a
concrete index pair. -/
theorem c9_amended_witness : (37 : Nat) = 37 :=
  c9_amended.1 37 37 rfl

/-- Witness for C3 (amended): two distinct locals (one repeated) and one
function declaration give a counter of 3. -/
theorem c3_amended_witness :
    (obfuscateCode oracle0 (lit "local x = 1 local x local y function f() end")
        (some ⟨some true, some false, some false, none⟩)).variablesRenamed =
      (distinctUnreserved []
          (localDeclNames (lit "local x = 1 local x local y function f() end"))).length +
        (distinctUnreserved []
          (funcDeclNames (lit "local x = 1 local x local y function f() end"))).length :=
  c3_amended oracle0 (lit "local x = 1 local x local y function f() end")
    (some ⟨some true, some false, some false, none⟩) rfl rfl

theorem replS_nil {σ : Type} (tryFn : σ → Option Nat → List Nat → Option (List Nat × Nat × σ))
    (fuel : Nat) (s : σ) (prev : Option Nat) (h : fuel ≠ 0) :
    replS tryFn fuel s prev [] = ([], s) := by
  cases fuel with
  | zero => exact absurd rfl h
  | succ f => rfl

theorem replS_matchAll {σ : Type}
    (tryFn : σ → Option Nat → List Nat → Option (List Nat × Nat × σ))
    (s s' : σ) (l rep : List Nat) (k : Nat)
    (hl : l ≠ []) (hk : l.drop (max k 1) = [])
    (ht : tryFn s none l = some (rep, k, s')) :
    replS tryFn (l.length + 1) s none l = (rep, s') := by
  cases l with
  | nil => exact absurd rfl hl
  | cons c tl =>
    rw [List.length_cons]
    simp only [replS, ht]
    rw [hk, replS_nil tryFn (tl.length + 1) s' _ (Nat.succ_ne_zero _)]
    simp

theorem stripPre_append : ∀ (p l : List Nat), stripPre p (p ++ l) = some l := by
  intro p
  induction p with
  | nil => intro l; rfl
  | cons c ps ih => intro l; simp only [List.cons_append, stripPre, if_pos rfl]; exact ih l

theorem takeWhile_append_stop (p : Nat → Bool) :
    ∀ (a b : List Nat), (∀ u ∈ a, p u = true) → (∀ c ∈ b.take 1, p c = false) →
      (a ++ b).takeWhile p = a := by
  intro a
  induction a with
  | nil =>
    intro b _ hb
    cases b with
    | nil => rfl
    | cons c tl =>
      rw [List.nil_append, List.takeWhile_cons, hb c (by simp)]
      rfl
  | cons x a ih =>
    intro b ha hb
    rw [List.cons_append, List.takeWhile_cons, ha x (by simp)]
    simp only [if_true]
    rw [ih b (fun u hu => ha u (by simp [hu])) hb]

theorem takeWhile_all (p : Nat → Bool) :
    ∀ (l : List Nat), (∀ u ∈ l, p u = true) → l.takeWhile p = l := by
  intro l
  induction l with
  | nil => intro _; rfl
  | cons c tl ih =>
    intro h
    rw [List.takeWhile_cons, h c (by simp), if_pos rfl, ih (fun u hu => h u (by simp [hu]))]

theorem dropWhile_none (p : Nat → Bool) :
    ∀ (l : List Nat), (∀ u ∈ l.take 1, p u = false) → l.dropWhile p = l := by
  intro l h
  cases l with
  | nil => rfl
  | cons c tl => rw [List.dropWhile_cons, h c (by simp)]; rfl

theorem matchCharCall_exact (args : List Nat) (hne : args ≠ [])
    (hnp : ∀ u ∈ args, u ≠ 41) :
    matchCharCall (lit "string.char(" ++ args ++ [41]) =
      some (args, 12 + args.length + 1) := by
  unfold matchCharCall
  rw [List.append_assoc, stripPre_append]
  have h1 : (args ++ [41]).takeWhile (fun u => u != 41) = args :=
    takeWhile_append_stop _ args [41]
      (fun u hu => by simpa using hnp u hu) (by simp)
  simp only [h1, if_neg hne, List.drop_left]

theorem decodeCharStep_exact (args : List Nat) (hne : args ≠ [])
    (hnp : ∀ u ∈ args, u ≠ 41) :
    decodeCharStep (lit "string.char(" ++ args ++ [41]) = (decodeCharArgs args, 1) := by
  unfold decodeCharStep
  have hlit : (lit "string.char(").length = 12 := by decide
  have hlen : (lit "string.char(" ++ args ++ [41]).length = 12 + args.length + 1 := by
    rw [List.length_append, List.length_append, hlit]
    simp
  have hmax : max (12 + args.length + 1) 1 = 12 + args.length + 1 := by omega
  have hr := replS_matchAll
    (fun (cnt : Nat) _ l => (matchCharCall l).map fun m => (decodeCharArgs m.1, m.2, cnt + 1))
    0 1 (lit "string.char(" ++ args ++ [41]) (decodeCharArgs args) (12 + args.length + 1)
    (by simp)
    (by rw [hmax, ← hlen]; exact List.drop_length _)
    (by
      show Option.map (fun m => (decodeCharArgs m.1, m.2, 0 + 1))
          (matchCharCall (lit "string.char(" ++ args ++ [41])) =
        some (decodeCharArgs args, 12 + args.length + 1, 1)
      rw [matchCharCall_exact args hne hnp]
      rfl)
  rw [hr]

theorem splitOnU_no_sep (sep : Nat) :
    ∀ (l : List Nat), (∀ u ∈ l, u ≠ sep) → splitOnU sep l = [l] := by
  intro l
  induction l with
  | nil => intro _; rfl
  | cons c tl ih =>
    intro h
    rw [splitOnU, if_neg (h c (by simp)), ih (fun u hu => h u (by simp [hu]))]

theorem splitOnU_append_sep (sep : Nat) :
    ∀ (a rest : List Nat), (∀ u ∈ a, u ≠ sep) →
      splitOnU sep (a ++ sep :: rest) = a :: splitOnU sep rest := by
  intro a
  induction a with
  | nil => intro rest _; rw [List.nil_append, splitOnU, if_pos rfl]
  | cons c a ih =>
    intro rest h
    rw [List.cons_append, splitOnU, if_neg (h c (by simp)),
      ih rest (fun u hu => h u (by simp [hu]))]

theorem split_join :
    ∀ (xs : List (List Nat)) (x : List Nat), (∀ u ∈ x, u ≠ 44) →
      (∀ y ∈ xs, ∀ u ∈ y, u ≠ 44) →
      splitOnU 44 (joinWith (fun _ => [44, 32]) (x :: xs)) =
        x :: xs.map (fun y => 32 :: y) := by
  intro xs
  induction xs with
  | nil => intro x hx _; exact splitOnU_no_sep 44 x hx
  | cons y ys ih =>
    intro x hx hys
    show splitOnU 44 (x ++ [44, 32] ++ joinWith _ (y :: ys)) = _
    rw [List.append_assoc]
    have : ([44, 32] : List Nat) ++ joinWith (fun _ => [44, 32]) (y :: ys) =
        44 :: 32 :: joinWith (fun _ => [44, 32]) (y :: ys) := rfl
    rw [this, splitOnU_append_sep 44 x _ hx, splitOnU, if_neg (by omega),
      ih y (hys y (by simp)) (fun z hz => hys z (by simp [hz]))]
    rfl

theorem toDecF_digits : ∀ (f n u : Nat), u ∈ toDecF f n → 48 ≤ u ∧ u ≤ 57 := by
  intro f
  induction f with
  | zero => intro n u h; simp [toDecF] at h
  | succ f ih =>
    intro n u h
    simp only [toDecF] at h
    by_cases hn : n < 10
    · rw [if_pos hn] at h
      have : u = decDigitU n := by simpa using h
      subst this
      unfold decDigitU
      omega
    · rw [if_neg hn] at h
      rcases List.mem_append.mp h with h1 | h1
      · exact ih (n / 10) u h1
      · have : u = decDigitU (n % 10) := by simpa using h1
        subst this
        unfold decDigitU
        have := Nat.mod_lt n (show 0 < 10 by omega)
        omega

theorem toDecF_ne_nil : ∀ (f n : Nat), n < f → toDecF f n ≠ [] := by
  intro f
  induction f with
  | zero => intro n h; exact absurd h (Nat.not_lt_zero n)
  | succ f _ =>
    intro n _
    simp only [toDecF]
    by_cases hn : n < 10
    · rw [if_pos hn]; simp
    · rw [if_neg hn]; simp

theorem toDec_ne_nil (n : Nat) : toDec n ≠ [] :=
  toDecF_ne_nil (n + 1) n (Nat.lt_succ_self n)

theorem toDec_digits (n u : Nat) (h : u ∈ toDec n) : 48 ≤ u ∧ u ≤ 57 :=
  toDecF_digits (n + 1) n u h

theorem decValue_append_digit (l : List Nat) (d : Nat) :
    decValue (l ++ [d]) = decValue l * 10 + (d - 48) := by
  simp [decValue, List.foldl_append]

theorem decValue_toDecF : ∀ (f n : Nat), n < f → decValue (toDecF f n) = n := by
  intro f
  induction f with
  | zero => intro n h; exact absurd h (Nat.not_lt_zero n)
  | succ f ih =>
    intro n h
    simp only [toDecF]
    by_cases hn : n < 10
    · rw [if_pos hn]
      show List.foldl _ 0 [decDigitU n] = n
      simp only [List.foldl_cons, List.foldl_nil]
      unfold decDigitU
      omega
    · rw [if_neg hn, decValue_append_digit,
        ih (n / 10) (by
          have : n / 10 < n := Nat.div_lt_self (by omega) (by omega)
          omega)]
      unfold decDigitU
      have := Nat.mod_lt n (show 0 < 10 by omega)
      have := Nat.div_add_mod n 10
      omega

theorem decValue_toDec (n : Nat) : decValue (toDec n) = n :=
  decValue_toDecF (n + 1) n (Nat.lt_succ_self n)

theorem isWsU_digit_false (u : Nat) (h : 48 ≤ u ∧ u ≤ 57) : isWsU u = false := by
  unfold isWsU
  simp only [Bool.or_eq_false_iff, beq_eq_false_iff_ne, ne_eq, Bool.and_eq_false_iff,
    decide_eq_false_iff_not, not_le]
  omega

theorem trimU_digits (l : List Nat) (h : ∀ u ∈ l, 48 ≤ u ∧ u ≤ 57) : trimU l = l := by
  unfold trimU
  rw [dropWhile_none _ l (fun u hu => isWsU_digit_false u (h u (List.mem_of_mem_take hu))),
    dropWhile_none _ l.reverse (fun u hu =>
      isWsU_digit_false u (h u (List.mem_reverse.mp (List.mem_of_mem_take hu)))),
    List.reverse_reverse]

theorem parseNoSign_toDec (u : Nat) : parseNoSign (toDec u) = some u := by
  unfold parseNoSign
  have hno : ¬((toDec u).take 2 = [48, 120] ∨ (toDec u).take 2 = [48, 88]) := by
    intro hcase
    have hsub := List.take_subset 2 (toDec u)
    rcases hcase with hc | hc
    · have h1 : (120 : Nat) ∈ (toDec u).take 2 := by rw [hc]; simp
      have := toDec_digits u 120 (hsub h1)
      omega
    · have h1 : (88 : Nat) ∈ (toDec u).take 2 := by rw [hc]; simp
      have := toDec_digits u 88 (hsub h1)
      omega
  rw [if_neg hno, takeWhile_all _ _ (fun v hv => by
    have := toDec_digits u v hv
    simp [isDigitU]
    omega), if_neg (toDec_ne_nil u), decValue_toDec]

theorem parseIntJS_of_dropWhile (l : List Nat) (u : Nat)
    (h : l.dropWhile isWsU = toDec u) : parseIntJS l = some (u : Int) := by
  unfold parseIntJS
  rw [h]
  have h43 : ¬(toDec u).take 1 = [43] := by
    intro hc
    have := toDec_digits u 43 (List.take_subset 1 (toDec u) (by rw [hc]; simp))
    omega
  have h45 : ¬(toDec u).take 1 = [45] := by
    intro hc
    have := toDec_digits u 45 (List.take_subset 1 (toDec u) (by rw [hc]; simp))
    omega
  rw [if_neg h43, if_neg h45, parseNoSign_toDec]
  rfl

theorem dropWhile_toDec (u : Nat) : (toDec u).dropWhile isWsU = toDec u :=
  dropWhile_none _ _ (fun v hv =>
    isWsU_digit_false v (toDec_digits u v (List.mem_of_mem_take hv)))

theorem parseIntJS_toDec (u : Nat) : parseIntJS (toDec u) = some (u : Int) :=
  parseIntJS_of_dropWhile _ u (dropWhile_toDec u)

theorem parseIntJS_sp_toDec (u : Nat) : parseIntJS (32 :: toDec u) = some (u : Int) :=
  parseIntJS_of_dropWhile _ u (by
    rw [List.dropWhile_cons, if_pos (by decide : isWsU 32 = true)]
    exact dropWhile_toDec u)

theorem trimU_sp_toDec (v : Nat) : trimU (32 :: toDec v) = toDec v := by
  unfold trimU
  rw [List.dropWhile_cons, if_pos (by decide : isWsU 32 = true), dropWhile_toDec,
    dropWhile_none _ _ (fun w hw =>
      isWsU_digit_false w (toDec_digits v w
        (List.mem_reverse.mp (List.mem_of_mem_take hw)))),
    List.reverse_reverse]

theorem fromCharCodeU_small (u : Nat) (hu : u < 65536) :
    fromCharCodeU (some (u : Int)) = u := by
  show ((u : Int) % (65536 : Int)).toNat = u
  omega

theorem arrayFromU_pairFree :
    ∀ (content : List Nat), pairFreeU content = true →
      arrayFromU content = content.map (fun u => [u]) := by
  intro content
  induction content with
  | nil => intro _; rfl
  | cons u tl ih =>
    intro h
    cases tl with
    | nil => rfl
    | cons v tl2 =>
      simp only [pairFreeU, Bool.and_eq_true, Bool.not_eq_true'] at h
      have harr : arrayFromU (u :: v :: tl2) = [u] :: arrayFromU (v :: tl2) := by
        show (if (isHighSurr u && isLowSurr v) = true then [u, v] :: arrayFromU tl2
          else [u] :: arrayFromU (v :: tl2)) = [u] :: arrayFromU (v :: tl2)
        rw [h.1]
        exact if_neg (by simp)
      rw [harr, ih h.2]
      rfl

theorem joinWith_mem (sep : List Nat) :
    ∀ (xs : List (List Nat)) (u : Nat), u ∈ joinWith (fun _ => sep) xs →
      u ∈ sep ∨ ∃ x ∈ xs, u ∈ x := by
  intro xs
  induction xs with
  | nil => intro u h; simp [joinWith] at h
  | cons x ys ih =>
    intro u h
    cases ys with
    | nil =>
      right
      exact ⟨x, by simp, by simpa [joinWith] using h⟩
    | cons y ys2 =>
      simp only [joinWith, List.append_assoc, List.mem_append] at h
      rcases h with h1 | h1 | h1
      · exact Or.inr ⟨x, by simp, h1⟩
      · exact Or.inl h1
      · rcases ih u h1 with h2 | ⟨z, hz, hu⟩
        · exact Or.inl h2
        · exact Or.inr ⟨z, by simp [hz], hu⟩

theorem joinWith_head (sep : List Nat) (x : List Nat) (xs : List (List Nat)) :
    ∃ t, joinWith (fun _ => sep) (x :: xs) = x ++ t := by
  cases xs with
  | nil => exact ⟨[], (List.append_nil x).symm⟩
  | cons y ys =>
    exact ⟨sep ++ joinWith (fun _ => sep) (y :: ys), by
      show x ++ sep ++ _ = _
      rw [List.append_assoc]⟩

/-- C6 (amended): for non-empty content without a surrogate pair (every code
point below U+10000, each unit a valid UTF-16 value), light-level encoding
followed by the deobfuscator's string-decode step yields exactly the quoted
literal of the original content, counting one decoded string. -/
theorem c6_amended (o : RandomOracle) (n : Nat) (content : List Nat)
    (hne : content ≠ [])
    (hu : ∀ u ∈ content, u < 65536)
    (hp : pairFreeU content = true) :
    decodeCharStep (encodeString o n content Level.light).1 =
      ([34] ++ content ++ [34], 1) := by
  have hcodes : (arrayFromU content).map charCode0 = content := by
    rw [arrayFromU_pairFree content hp, List.map_map,
      show (charCode0 ∘ fun u : Nat => [u]) = id from funext (fun _ => rfl),
      List.map_id]
  show decodeCharStep (charCallOf ((arrayFromU content).map charCode0)) = _
  rw [hcodes]
  unfold charCallOf joinSep
  have hargnp : ∀ u ∈ joinWith (fun _ => [44, 32]) (content.map toDec), u ≠ 41 := by
    intro u hmem
    rcases joinWith_mem [44, 32] (content.map toDec) u hmem with h1 | ⟨x, hx, hux⟩
    · simp at h1; omega
    · rcases List.mem_map.mp hx with ⟨v, _, rfl⟩
      have := toDec_digits v u hux
      omega
  obtain ⟨c0, cs, rfl⟩ : ∃ c0 cs, content = c0 :: cs := by
    cases content with
    | nil => exact absurd rfl hne
    | cons a b => exact ⟨a, b, rfl⟩
  have hargne : joinWith (fun _ => [44, 32]) ((c0 :: cs).map toDec) ≠ [] := by
    rw [List.map_cons]
    obtain ⟨t, ht⟩ := joinWith_head [44, 32] (toDec c0) (cs.map toDec)
    rw [ht]
    simp [toDec_ne_nil c0]
  rw [decodeCharStep_exact _ hargne hargnp]
  unfold decodeCharArgs
  rw [List.map_cons, split_join (cs.map toDec) (toDec c0)
    (fun u hu2 => by have := toDec_digits c0 u hu2; omega)
    (fun y hy u hu2 => by
      rcases List.mem_map.mp hy with ⟨v, _, rfl⟩
      have := toDec_digits v u hu2
      omega)]
  simp only [List.map_cons]
  rw [trimU_digits (toDec c0) (toDec_digits c0), parseIntJS_toDec,
    fromCharCodeU_small c0 (hu c0 (by simp))]
  have hmap : ∀ (ds : List Nat), (∀ v ∈ ds, v < 65536) →
      ((ds.map toDec).map (fun y => 32 :: y)).map
        (fun t => fromCharCodeU (parseIntJS (trimU t))) = ds := by
    intro ds
    induction ds with
    | nil => intro _; rfl
    | cons v vs ih =>
      intro hds
      simp only [List.map_cons]
      rw [ih (fun w hw => hds w (by simp [hw])), trimU_sp_toDec, parseIntJS_toDec,
        fromCharCodeU_small v (hds v (by simp))]
  rw [hmap cs (fun v hv => hu v (by simp [hv]))]

theorem length_dropWhileU (p : Nat → Bool) (l : List Nat) :
    (l.dropWhile p).length ≤ l.length := by
  induction l with
  | nil => simp
  | cons c tl ih =>
    rw [List.dropWhile_cons]
    by_cases hc : p c = true
    · rw [if_pos hc]; simp; omega
    · rw [if_neg hc]

theorem dropWhile_append_all (p : Nat → Bool) :
    ∀ (a b : List Nat), (∀ u ∈ a, p u = true) →
      (a ++ b).dropWhile p = b.dropWhile p := by
  intro a
  induction a with
  | nil => intro b _; rfl
  | cons c a ih =>
    intro b h
    rw [List.cons_append, List.dropWhile_cons, if_pos (h c (by simp))]
    exact ih b (fun u hu => h u (by simp [hu]))

theorem dropWhile_head_false (p : Nat → Bool) :
    ∀ (l : List Nat) (d : Nat) (t : List Nat), l.dropWhile p = d :: t → p d = false := by
  intro l
  induction l with
  | nil => intro d t h; simp at h
  | cons c tl ih =>
    intro d t h
    rw [List.dropWhile_cons] at h
    by_cases hc : p c = true
    · rw [if_pos hc] at h; exact ih d t h
    · rw [if_neg hc] at h
      obtain ⟨rfl, -⟩ := List.cons.injEq .. ▸ h
      · exact Bool.eq_false_iff.mpr hc

theorem replS_congr {σ : Type}
    (tryFn : σ → Option Nat → List Nat → Option (List Nat × Nat × σ)) :
    ∀ (f1 f2 : Nat) (s : σ) (prev : Option Nat) (l : List Nat),
      l.length < f1 → l.length < f2 →
      replS tryFn f1 s prev l = replS tryFn f2 s prev l := by
  intro f1
  induction f1 with
  | zero => intro f2 s prev l h1 _; exact absurd h1 (Nat.not_lt_zero _)
  | succ f ih =>
    intro f2 s prev l h1 h2
    cases f2 with
    | zero => exact absurd h2 (Nat.not_lt_zero _)
    | succ f2 =>
      cases l with
      | nil => rfl
      | cons c tl =>
        simp only [replS]
        cases htry : tryFn s prev (c :: tl) with
        | none =>
          rw [ih f2 s (some c) tl (by simp at h1; omega) (by simp at h2; omega)]
        | some m =>
          obtain ⟨rep, k, s'⟩ := m
          have hmax : 1 ≤ max k 1 := Nat.le_max_right k 1
          have hlen : (c :: tl).length = tl.length + 1 := by simp
          have hd1 : ((c :: tl).drop (max k 1)).length < f := by
            rw [List.length_drop]; omega
          have hd2 : ((c :: tl).drop (max k 1)).length < f2 := by
            rw [List.length_drop]; omega
          dsimp only
          rw [ih f2 s' _ _ hd1 hd2]

theorem replS_rwTry_prev (name rep : List Nat) :
    ∀ (f : Nat) (p1 p2 : Option Nat) (l : List Nat) (s : Unit),
      prevWord p1 = prevWord p2 →
      replS (rwTry name rep) f s p1 l = replS (rwTry name rep) f s p2 l := by
  intro f
  induction f with
  | zero => intros; rfl
  | succ f _ =>
    intro p1 p2 l s h
    cases l with
    | nil => rfl
    | cons c tl =>
      simp only [replS, rwTry, h]

theorem wwAt_nil (name : List Nat) (pw : Bool) : wwAt name pw [] = false := by
  cases name with
  | nil => rfl
  | cons c n' =>
    simp only [wwAt]
    have : (c :: n').isPrefixOf ([] : List Nat) = false := rfl
    rw [this]
    simp

theorem wwAt_true_pw (name l : List Nat) (h : isWordU (name.headD 0) = true) :
    wwAt name true l = false := by
  cases name with
  | nil => rfl
  | cons c n' =>
    simp only [wwAt]
    simp only [List.headD_cons] at h
    rw [h]
    simp

theorem wwAt_nonword_head (name : List Nat) (pw : Bool) (d : Nat) (tl : List Nat)
    (hh : isWordU (name.headD 0) = true) (hd : isWordU d = false) :
    wwAt name pw (d :: tl) = false := by
  cases name with
  | nil => rfl
  | cons c n' =>
    simp only [List.headD_cons] at hh
    have hcd : c ≠ d := fun he => by rw [he, hd] at hh; exact Bool.false_ne_true hh
    simp only [wwAt, List.isPrefixOf]
    have : (c == d) = false := beq_eq_false_iff_ne.mpr hcd
    rw [this]
    simp

theorem wwAt_run_iff (name run rest : List Nat)
    (hn : name ≠ []) (hwn : ∀ u ∈ name, isWordU u = true)
    (hr : run ≠ []) (hwr : ∀ u ∈ run, isWordU u = true)
    (hrest : rest = [] ∨ isWordU (rest.headD 0) = false) :
    (wwAt name false (run ++ rest) = true ↔ run = name) := by
  obtain ⟨c, name', rfl⟩ : ∃ c n', name = c :: n' := by
    cases name with
    | nil => exact absurd rfl hn
    | cons a b => exact ⟨a, b, rfl⟩
  obtain ⟨e, he⟩ : ∃ e, (c :: name').getLast? = some e :=
    ⟨(c :: name').getLast (by simp), List.getLast?_eq_getLast _ _⟩
  have hew : isWordU e = true := hwn e (List.mem_of_getLast?_eq_some he)
  constructor
  · intro h
    simp only [wwAt, he, Bool.and_eq_true] at h
    obtain ⟨⟨-, hpre⟩, haft⟩ := h
    rw [List.isPrefixOf_iff_prefix] at hpre
    have htake := List.prefix_iff_eq_take.mp hpre
    rcases Nat.lt_trichotomy (c :: name').length run.length with hlt | heq | hgt
    · exfalso
      have hdrop : (run ++ rest).drop (c :: name').length =
          run.drop (c :: name').length ++ rest :=
        List.drop_append_of_le_length (Nat.le_of_lt hlt)
      have hne2 : run.drop (c :: name').length ≠ [] := by
        intro hnil
        have hl := congrArg List.length hnil
        rw [List.length_drop, List.length_nil] at hl
        omega
      obtain ⟨d, ds, hds⟩ := List.exists_cons_of_ne_nil hne2
      have hdw : isWordU d = true :=
        hwr d (List.drop_subset _ run (by rw [hds]; simp))
      rw [hdrop, hds] at haft
      simp only [List.cons_append] at haft
      rw [hdw] at haft
      simp [hew] at haft
    · -- equal lengths: the prefix is exactly the run
      have : (run ++ rest).take (c :: name').length = run := by
        rw [heq, List.take_append_of_le_length (Nat.le_refl _), List.take_length]
      rw [htake, this]
    · exfalso
      have hX : c :: name' = run ++ rest.take ((c :: name').length - run.length) := by
        conv_lhs => rw [htake]
        rw [List.take_append_eq_append_take,
          List.take_of_length_le (Nat.le_of_lt hgt)]
      have hXlen : 1 ≤ (rest.take ((c :: name').length - run.length)).length := by
        have hlc := congrArg List.length hX
        rw [List.length_append] at hlc
        omega
      obtain ⟨r0, rest', hr0⟩ : ∃ r0 rest', rest = r0 :: rest' := by
        cases rest with
        | nil => simp at hXlen
        | cons a b => exact ⟨a, b, rfl⟩
      have hr0w : isWordU r0 = false := by
        rcases hrest with h1 | h1
        · rw [h1] at hr0; simp at hr0
        · rw [hr0] at h1; simpa using h1
      have hk1 : 1 ≤ (c :: name').length - run.length := by
        by_contra hk
        have hz : (c :: name').length - run.length = 0 := by omega
        rw [hz] at hXlen
        simp at hXlen
      have hr0mem : r0 ∈ c :: name' := by
        rw [hX, hr0]
        obtain ⟨k', hk'⟩ : ∃ k', (c :: name').length - run.length = k' + 1 :=
          ⟨(c :: name').length - run.length - 1,
            (Nat.succ_pred_eq_of_pos hk1).symm⟩
        rw [hk', List.take_succ_cons]
        simp
      rw [hwn r0 hr0mem] at hr0w
      simp at hr0w
  · intro h
    subst h
    simp only [wwAt, he]
    have h1 : (false != isWordU c) = true := by rw [hwn c (by simp)]; rfl
    have h2 : (c :: name').isPrefixOf ((c :: name') ++ rest) = true := by
      rw [List.isPrefixOf_iff_prefix]
      exact List.prefix_append _ _
    have h3 : ((c :: name') ++ rest).drop (c :: name').length = rest :=
      List.drop_left _ _
    rw [h1, h2, h3]
    cases rest with
    | nil => simpa using hew
    | cons d rest' =>
      have hdw : isWordU d = false := by
        rcases hrest with hh | hh
        · simp at hh
        · simpa using hh
      show (true && true && (isWordU e != isWordU d)) = true
      rw [hew, hdw]
      rfl

theorem replS_word_walk (name rep : List Nat) (hnh : isWordU (name.headD 0) = true) :
    ∀ (run rest : List Nat), (∀ u ∈ run, isWordU u = true) →
      (replS (rwTry name rep) ((run ++ rest).length + 1) () (some 95) (run ++ rest)).1 =
        run ++ (replS (rwTry name rep) (rest.length + 1) () (some 95) rest).1 := by
  intro run
  induction run with
  | nil => intro rest _; rfl
  | cons c run' ih =>
    intro rest hw
    have hc : isWordU c = true := hw c (by simp)
    have htry : rwTry name rep () (some 95) (c :: (run' ++ rest)) = none := by
      have hfalse : wwAt name (isWordU 95) (c :: (run' ++ rest)) = false :=
        wwAt_true_pw name _ hnh
      simp only [rwTry, prevWord, hfalse]
      rfl
    show (replS (rwTry name rep) ((c :: (run' ++ rest)).length + 1) () (some 95)
        (c :: (run' ++ rest))).1 = _
    rw [List.length_cons]
    simp only [replS, htry]
    rw [replS_rwTry_prev name rep _ (some c) (some 95) _ ()
      (by show isWordU c = isWordU 95; rw [hc]; rfl)]
    rw [ih rest (fun u hu => hw u (by simp [hu]))]
    rfl

theorem replS_rest_glue (name rep : List Nat) (hnh : isWordU (name.headD 0) = true)
    (rest : List Nat) (hrest : rest = [] ∨ isWordU (rest.headD 0) = false) :
    replS (rwTry name rep) (rest.length + 1) () (some 95) rest =
      replS (rwTry name rep) (rest.length + 1) () none rest := by
  cases rest with
  | nil => rfl
  | cons d r' =>
    have hd : isWordU d = false := by
      rcases hrest with hh | hh
      · simp at hh
      · simpa using hh
    have h1 : rwTry name rep () (some 95) (d :: r') = none := by
      have hfalse : wwAt name (isWordU 95) (d :: r') = false :=
        wwAt_true_pw name _ hnh
      simp only [rwTry, prevWord, hfalse]
      rfl
    have h2 : rwTry name rep () none (d :: r') = none := by
      have hfalse : wwAt name false (d :: r') = false :=
        wwAt_nonword_head name false d r' hnh hd
      simp only [rwTry, prevWord, hfalse]
      rfl
    simp only [replS, h1, h2]

theorem specF_congr (name rep : List Nat) :
    ∀ (f1 f2 : Nat) (l : List Nat), l.length < f1 → l.length < f2 →
      replaceWordSpecF name rep f1 l = replaceWordSpecF name rep f2 l := by
  intro f1
  induction f1 with
  | zero => intro f2 l h1 _; exact absurd h1 (Nat.not_lt_zero _)
  | succ f ih =>
    intro f2 l h1 h2
    cases f2 with
    | zero => exact absurd h2 (Nat.not_lt_zero _)
    | succ f2 =>
      cases l with
      | nil => rfl
      | cons c tl =>
        have hlc : (c :: tl).length = tl.length + 1 := by simp
        simp only [replaceWordSpecF]
        by_cases hc : isWordU c = true
        · rw [if_pos hc, if_pos hc]
          have hdl : ((c :: tl).dropWhile isWordU).length ≤ tl.length := by
            rw [List.dropWhile_cons, if_pos hc]
            exact length_dropWhileU _ tl
          rw [ih f2 _ (by omega) (by omega)]
        · rw [if_neg hc, if_neg hc, ih f2 tl (by omega) (by omega)]

theorem wordRunsF_congr :
    ∀ (f1 f2 : Nat) (l : List Nat), l.length < f1 → l.length < f2 →
      wordRunsF f1 l = wordRunsF f2 l := by
  intro f1
  induction f1 with
  | zero => intro f2 l h1 _; exact absurd h1 (Nat.not_lt_zero _)
  | succ f ih =>
    intro f2 l h1 h2
    cases f2 with
    | zero => exact absurd h2 (Nat.not_lt_zero _)
    | succ f2 =>
      cases l with
      | nil => rfl
      | cons c tl =>
        have hlc : (c :: tl).length = tl.length + 1 := by simp
        simp only [wordRunsF]
        by_cases hc : isWordU c = true
        · rw [if_pos hc, if_pos hc]
          have hdl : ((c :: tl).dropWhile isWordU).length ≤ tl.length := by
            rw [List.dropWhile_cons, if_pos hc]
            exact length_dropWhileU _ tl
          rw [ih f2 _ (by omega) (by omega)]
        · rw [if_neg hc, if_neg hc, ih f2 tl (by omega) (by omega)]

theorem wordRuns_cons_nonword (c : Nat) (l : List Nat) (hc : isWordU c = false) :
    wordRuns (c :: l) = wordRuns l := by
  show wordRunsF ((c :: l).length + 1) (c :: l) = wordRunsF (l.length + 1) l
  rw [List.length_cons]
  simp only [wordRunsF]
  rw [if_neg (by simp [hc])]

theorem wordRuns_word_head (c : Nat) (tl : List Nat) (hc : isWordU c = true) :
    wordRuns (c :: tl) =
      ((c :: tl).takeWhile isWordU) :: wordRuns ((c :: tl).dropWhile isWordU) := by
  show wordRunsF ((c :: tl).length + 1) (c :: tl) = _
  rw [List.length_cons]
  simp only [wordRunsF]
  rw [if_pos hc]
  congr 1
  apply wordRunsF_congr
  · have : ((c :: tl).dropWhile isWordU).length ≤ tl.length := by
      rw [List.dropWhile_cons, if_pos hc]
      exact length_dropWhileU _ tl
    omega
  · exact Nat.lt_succ_self _

theorem rest_take_cond (rest : List Nat)
    (hrest : rest = [] ∨ isWordU (rest.headD 0) = false) :
    ∀ u ∈ rest.take 1, isWordU u = false := by
  intro u hu
  cases rest with
  | nil => simp at hu
  | cons d r' =>
    simp at hu
    subst hu
    rcases hrest with hh | hh
    · simp at hh
    · simpa using hh

theorem wordRuns_append_run (x rest : List Nat) (hx : x ≠ [])
    (hxw : ∀ u ∈ x, isWordU u = true)
    (hrest : rest = [] ∨ isWordU (rest.headD 0) = false) :
    wordRuns (x ++ rest) = x :: wordRuns rest := by
  obtain ⟨c, x', rfl⟩ : ∃ c x', x = c :: x' := by
    cases x with
    | nil => exact absurd rfl hx
    | cons a b => exact ⟨a, b, rfl⟩
  rw [List.cons_append, wordRuns_word_head c (x' ++ rest) (hxw c (by simp))]
  have e1 : c :: (x' ++ rest) = (c :: x') ++ rest := rfl
  rw [e1, takeWhile_append_stop _ (c :: x') rest hxw (rest_take_cond rest hrest),
    dropWhile_append_all _ (c :: x') rest hxw,
    dropWhile_none _ rest (rest_take_cond rest hrest)]

theorem replaceWord_eq_specF (name rep : List Nat) (hn : name ≠ [])
    (hwn : ∀ u ∈ name, isWordU u = true) :
    ∀ (N : Nat) (l : List Nat), l.length ≤ N →
      (replS (rwTry name rep) (l.length + 1) () none l).1 =
        replaceWordSpecF name rep (l.length + 1) l := by
  have hnh : isWordU (name.headD 0) = true := by
    cases name with
    | nil => exact absurd rfl hn
    | cons a b => exact hwn a (by simp)
  intro N
  induction N with
  | zero =>
    intro l h
    cases l with
    | nil => rfl
    | cons c tl => simp at h
  | succ N ih =>
    intro l hlen
    cases l with
    | nil => rfl
    | cons c tl =>
      have hlc : (c :: tl).length = tl.length + 1 := by simp
      by_cases hc : isWordU c = true
      · -- word head: decompose into the maximal run and the remainder
        have hsplit : (c :: tl).takeWhile isWordU ++ (c :: tl).dropWhile isWordU
            = c :: tl := List.takeWhile_append_dropWhile isWordU (c :: tl)
        have hrun_ne : (c :: tl).takeWhile isWordU ≠ [] := by
          rw [List.takeWhile_cons, if_pos hc]
          simp
        have hrw : ∀ u ∈ (c :: tl).takeWhile isWordU, isWordU u = true :=
          fun u hu => List.mem_takeWhile_imp hu
        have hrest : (c :: tl).dropWhile isWordU = [] ∨
            isWordU (((c :: tl).dropWhile isWordU).headD 0) = false := by
          cases hdw : (c :: tl).dropWhile isWordU with
          | nil => exact Or.inl rfl
          | cons d r' =>
            right
            rw [List.headD_cons]
            exact dropWhile_head_false _ _ d r' hdw
        have hrest_len : ((c :: tl).dropWhile isWordU).length ≤ tl.length := by
          rw [List.dropWhile_cons, if_pos hc]
          exact length_dropWhileU _ tl
        have hglue : (replS (rwTry name rep)
              (((c :: tl).dropWhile isWordU).length + 1) () (some 95)
              ((c :: tl).dropWhile isWordU)).1 =
            replaceWordSpecF name rep (((c :: tl).dropWhile isWordU).length + 1)
              ((c :: tl).dropWhile isWordU) := by
          rw [replS_rest_glue name rep hnh _ hrest]
          exact ih _ (by omega)
        have hww := wwAt_run_iff name ((c :: tl).takeWhile isWordU)
          ((c :: tl).dropWhile isWordU) hn hwn hrun_ne hrw hrest
        by_cases hre : (c :: tl).takeWhile isWordU = name
        · -- the run is the name: the whole-word match fires here
          have htry : rwTry name rep () none (c :: tl) = some (rep, name.length, ()) := by
            have htrue : wwAt name false (c :: tl) = true := by
              rw [← hsplit]
              exact hww.mpr hre
            simp only [rwTry, prevWord, htrue]
            rfl
          show (replS (rwTry name rep) ((c :: tl).length + 1) () none (c :: tl)).1 = _
          rw [hlc]
          simp only [replS, htry]
          have hmax : max name.length 1 = name.length := by
            have : name.length ≠ 0 := fun hz => hn (List.eq_nil_of_length_eq_zero hz)
            omega
          have hdrop : (c :: tl).drop (max name.length 1) = (c :: tl).dropWhile isWordU := by
            rw [hmax]
            conv_lhs => rw [← hsplit, hre]
            exact List.drop_left _ _
          have hprevw : prevWord (some ((c :: tl).getD (max name.length 1 - 1) 0)) = true := by
            rw [hmax]
            have hidx : name.length - 1 < name.length := by
              have : name.length ≠ 0 := fun hz => hn (List.eq_nil_of_length_eq_zero hz)
              omega
            have hgd : (c :: tl).getD (name.length - 1) 0 =
                name.getD (name.length - 1) 0 := by
              conv_lhs => rw [← hsplit, hre]
              rw [List.getD_append _ _ _ _ hidx]
            rw [prevWord, hgd, List.getD_eq_getElem _ _ hidx]
            exact hwn _ (List.getElem_mem _)
          rw [replS_rwTry_prev name rep _ _ (some 95) _ () (by rw [hprevw]; rfl)]
          rw [hdrop]
          rw [replS_congr (rwTry name rep) (tl.length + 1)
            (((c :: tl).dropWhile isWordU).length + 1) () (some 95) _
            (by omega) (Nat.lt_succ_self _)]
          rw [hglue]
          -- right-hand side
          show _ = replaceWordSpecF name rep (tl.length + 1 + 1) (c :: tl)
          simp only [replaceWordSpecF]
          rw [if_pos hc]
          unfold substRun
          rw [if_pos hre]
          congr 1
          exact (specF_congr name rep (tl.length + 1) _ _ (by omega)
            (Nat.lt_succ_self _)).symm
        · -- the run differs from the name: no match anywhere in the run
          have htry : rwTry name rep () none (c :: tl) = none := by
            have hfalse : wwAt name false (c :: tl) = false := by
              rw [← hsplit]
              rcases Bool.eq_false_or_eq_true
                (wwAt name false ((c :: tl).takeWhile isWordU ++
                  (c :: tl).dropWhile isWordU)) with hb | hb
              · exact absurd (hww.mp hb) hre
              · exact hb
            simp only [rwTry, prevWord, hfalse]
            rfl
          show (replS (rwTry name rep) ((c :: tl).length + 1) () none (c :: tl)).1 = _
          rw [hlc]
          simp only [replS, htry]
          -- the run begins with c; walk the rest of it without matches
          obtain ⟨x', hx'⟩ : ∃ x', (c :: tl).takeWhile isWordU = c :: x' := by
            rw [List.takeWhile_cons, if_pos hc]
            exact ⟨tl.takeWhile isWordU, rfl⟩
          have htl : tl = x' ++ (c :: tl).dropWhile isWordU := by
            have h2 := hsplit
            rw [hx'] at h2
            simpa using h2.symm
          rw [replS_rwTry_prev name rep _ (some c) (some 95) _ ()
            (by show isWordU c = isWordU 95; rw [hc]; rfl)]
          conv_lhs => rw [htl]
          have hxw : ∀ u ∈ x', isWordU u = true := by
            intro u hu
            exact hrw u (by rw [hx']; simp [hu])
          rw [replS_word_walk name rep hnh x' _ hxw]
          rw [hglue]
          -- right-hand side
          show _ = replaceWordSpecF name rep (tl.length + 1 + 1) (c :: tl)
          simp only [replaceWordSpecF]
          rw [if_pos hc]
          unfold substRun
          rw [if_neg hre, hx']
          rw [(specF_congr name rep (tl.length + 1) _ _ (by omega)
            (Nat.lt_succ_self _)).symm]
          rfl
      · -- non-word head: copy one character
        have hcf : isWordU c = false := Bool.eq_false_iff.mpr hc
        have htry : rwTry name rep () none (c :: tl) = none := by
          have hfalse : wwAt name false (c :: tl) = false :=
            wwAt_nonword_head name false c tl hnh hcf
          simp only [rwTry, prevWord, hfalse]
          rfl
        show (replS (rwTry name rep) ((c :: tl).length + 1) () none (c :: tl)).1 = _
        rw [hlc]
        simp only [replS, htry]
        rw [replS_rwTry_prev name rep _ (some c) none _ ()
          (by show isWordU c = false; exact hcf)]
        rw [ih tl (by omega)]
        show _ = replaceWordSpecF name rep (tl.length + 1 + 1) (c :: tl)
        simp only [replaceWordSpecF]
        rw [if_neg hc]

theorem spec_runs (name rep : List Nat) (hrep : rep ≠ [])
    (hrw : ∀ u ∈ rep, isWordU u = true) :
    ∀ (N : Nat) (l : List Nat), l.length ≤ N →
      wordRuns (replaceWordSpecF name rep (l.length + 1) l) =
        (wordRuns l).map (substRun name rep) := by
  intro N
  induction N with
  | zero =>
    intro l h
    cases l with
    | nil => rfl
    | cons c tl => simp at h
  | succ N ih =>
    intro l hlen
    cases l with
    | nil => rfl
    | cons c tl =>
      have hlc : (c :: tl).length = tl.length + 1 := by simp
      by_cases hc : isWordU c = true
      · have hrun_ne : (c :: tl).takeWhile isWordU ≠ [] := by
          rw [List.takeWhile_cons, if_pos hc]
          simp
        have hrunw : ∀ u ∈ (c :: tl).takeWhile isWordU, isWordU u = true :=
          fun u hu => List.mem_takeWhile_imp hu
        have hrest : (c :: tl).dropWhile isWordU = [] ∨
            isWordU (((c :: tl).dropWhile isWordU).headD 0) = false := by
          cases hdw : (c :: tl).dropWhile isWordU with
          | nil => exact Or.inl rfl
          | cons d r' =>
            right
            rw [List.headD_cons]
            exact dropWhile_head_false _ _ d r' hdw
        have hrest_len : ((c :: tl).dropWhile isWordU).length ≤ tl.length := by
          rw [List.dropWhile_cons, if_pos hc]
          exact length_dropWhileU _ tl
        show wordRuns (replaceWordSpecF name rep ((c :: tl).length + 1) (c :: tl)) = _
        rw [hlc]
        simp only [replaceWordSpecF]
        rw [if_pos hc]
        rw [specF_congr name rep (tl.length + 1)
          (((c :: tl).dropWhile isWordU).length + 1) _ (by omega) (Nat.lt_succ_self _)]
        have hsub_ne : substRun name rep ((c :: tl).takeWhile isWordU) ≠ [] := by
          unfold substRun
          by_cases hre : (c :: tl).takeWhile isWordU = name
          · rw [if_pos hre]; exact hrep
          · rw [if_neg hre]; exact hrun_ne
        have hsub_w : ∀ u ∈ substRun name rep ((c :: tl).takeWhile isWordU),
            isWordU u = true := by
          unfold substRun
          by_cases hre : (c :: tl).takeWhile isWordU = name
          · rw [if_pos hre]; exact hrw
          · rw [if_neg hre]; exact hrunw
        have hS : replaceWordSpecF name rep
              (((c :: tl).dropWhile isWordU).length + 1) ((c :: tl).dropWhile isWordU) = [] ∨
            isWordU ((replaceWordSpecF name rep
              (((c :: tl).dropWhile isWordU).length + 1)
              ((c :: tl).dropWhile isWordU)).headD 0) = false := by
          cases hdw : (c :: tl).dropWhile isWordU with
          | nil => exact Or.inl rfl
          | cons d r' =>
            right
            have hdn : isWordU d = false := dropWhile_head_false _ _ d r' hdw
            show isWordU ((replaceWordSpecF name rep ((d :: r').length + 1)
              (d :: r')).headD 0) = false
            rw [List.length_cons]
            simp only [replaceWordSpecF]
            rw [if_neg (by simp [hdn])]
            rw [List.headD_cons]
            exact hdn
        rw [wordRuns_append_run _ _ hsub_ne hsub_w hS]
        rw [ih _ (by omega)]
        rw [wordRuns_word_head c tl hc]
        rfl
      · have hcf2 : isWordU c = false := Bool.eq_false_iff.mpr hc
        show wordRuns (replaceWordSpecF name rep ((c :: tl).length + 1) (c :: tl)) = _
        rw [hlc]
        simp only [replaceWordSpecF]
        rw [if_neg hc]
        rw [specF_congr name rep (tl.length + 1) (tl.length + 1 + 1) tl
          (Nat.lt_succ_self _) (by omega)]
        rw [wordRuns_cons_nonword c _ hcf2]
        rw [specF_congr name rep (tl.length + 1 + 1) (tl.length + 1) tl
          (by omega) (Nat.lt_succ_self _)]
        rw [ih tl (by omega)]
        rw [wordRuns_cons_nonword c tl hcf2]

theorem hasWWAux_word_run (name : List Nat) (hnh : isWordU (name.headD 0) = true) :
    ∀ (run rest : List Nat), (∀ u ∈ run, isWordU u = true) →
      hasWWAux name true (run ++ rest) = hasWWAux name true rest := by
  intro run
  induction run with
  | nil => intro rest _; rfl
  | cons c run' ih =>
    intro rest hw
    have hc : isWordU c = true := hw c (by simp)
    show (wwAt name true (c :: (run' ++ rest)) || hasWWAux name (isWordU c) (run' ++ rest)) = _
    rw [wwAt_true_pw name _ hnh, hc, Bool.false_or]
    exact ih rest (fun u hu => hw u (by simp [hu]))

theorem hasWWAux_glue (name : List Nat) (hnh : isWordU (name.headD 0) = true)
    (rest : List Nat) (hrest : rest = [] ∨ isWordU (rest.headD 0) = false) :
    hasWWAux name true rest = hasWWAux name false rest := by
  cases rest with
  | nil => rfl
  | cons d r' =>
    have hd : isWordU d = false := by
      rcases hrest with hh | hh
      · simp at hh
      · simpa using hh
    show (wwAt name true (d :: r') || hasWWAux name (isWordU d) r') =
      (wwAt name false (d :: r') || hasWWAux name (isWordU d) r')
    rw [wwAt_true_pw name _ hnh, wwAt_nonword_head name false d r' hnh hd]

theorem hasWW_iff_runs (name : List Nat) (hn : name ≠ [])
    (hwn : ∀ u ∈ name, isWordU u = true) :
    ∀ (N : Nat) (l : List Nat), l.length ≤ N →
      (hasWholeWord name l = true ↔ name ∈ wordRuns l) := by
  have hnh : isWordU (name.headD 0) = true := by
    cases name with
    | nil => exact absurd rfl hn
    | cons a b => exact hwn a (by simp)
  intro N
  induction N with
  | zero =>
    intro l h
    cases l with
    | nil => simp [hasWholeWord, hasWWAux, wordRuns, wordRunsF]
    | cons c tl => simp at h
  | succ N ih =>
    intro l hlen
    cases l with
    | nil => simp [hasWholeWord, hasWWAux, wordRuns, wordRunsF]
    | cons c tl =>
      by_cases hc : isWordU c = true
      · have hrun_ne : (c :: tl).takeWhile isWordU ≠ [] := by
          rw [List.takeWhile_cons, if_pos hc]
          simp
        have hrunw : ∀ u ∈ (c :: tl).takeWhile isWordU, isWordU u = true :=
          fun u hu => List.mem_takeWhile_imp hu
        have hrest : (c :: tl).dropWhile isWordU = [] ∨
            isWordU (((c :: tl).dropWhile isWordU).headD 0) = false := by
          cases hdw : (c :: tl).dropWhile isWordU with
          | nil => exact Or.inl rfl
          | cons d r' =>
            right
            rw [List.headD_cons]
            exact dropWhile_head_false _ _ d r' hdw
        have hrest_len : ((c :: tl).dropWhile isWordU).length ≤ tl.length := by
          rw [List.dropWhile_cons, if_pos hc]
          exact length_dropWhileU _ tl
        have hsplit : (c :: tl).takeWhile isWordU ++ (c :: tl).dropWhile isWordU
            = c :: tl := List.takeWhile_append_dropWhile isWordU (c :: tl)
        have hww := wwAt_run_iff name ((c :: tl).takeWhile isWordU)
          ((c :: tl).dropWhile isWordU) hn hwn hrun_ne hrunw hrest
        obtain ⟨x', hx'⟩ : ∃ x', (c :: tl).takeWhile isWordU = c :: x' := by
          rw [List.takeWhile_cons, if_pos hc]
          exact ⟨tl.takeWhile isWordU, rfl⟩
        have htl : tl = x' ++ (c :: tl).dropWhile isWordU := by
          have h2 := hsplit
          rw [hx'] at h2
          simpa using h2.symm
        have hlc : (c :: tl).length = tl.length + 1 := by simp
        have he : List.takeWhile isWordU (c :: tl) ++ List.dropWhile isWordU (c :: tl) =
            c :: (x' ++ List.dropWhile isWordU (c :: tl)) := by
          rw [hx']
          rfl
        show (wwAt name false (c :: tl) || hasWWAux name (isWordU c) tl) = true ↔ _
        rw [hc]
        conv_lhs => rw [htl]
        rw [hasWWAux_word_run name hnh x' _ (fun u hu => hrunw u (by rw [hx']; simp [hu]))]
        rw [hasWWAux_glue name hnh _ hrest]
        rw [wordRuns_word_head c tl hc]
        rw [Bool.or_eq_true]
        constructor
        · intro h
          rcases h with h1 | h1
          · rw [← he] at h1
            exact List.mem_cons.mpr (Or.inl (hww.mp h1).symm)
          · exact List.mem_cons.mpr (Or.inr ((ih _ (by omega)).mp h1))
        · intro h
          rcases List.mem_cons.mp h with h1 | h1
          · left
            have hx := hww.mpr h1.symm
            rw [he] at hx
            exact hx
          · right
            exact (ih _ (by omega)).mpr h1
      · have hcf2 : isWordU c = false := Bool.eq_false_iff.mpr hc
        show (wwAt name false (c :: tl) || hasWWAux name (isWordU c) tl) = true ↔ _
        rw [wwAt_nonword_head name false c tl hnh hcf2, hcf2, Bool.false_or,
          wordRuns_cons_nonword c tl hcf2]
        exact ih tl (by simp at hlen; omega)

theorem runs_replaceWord (name rep text : List Nat) (hn : name ≠ [])
    (hwn : ∀ u ∈ name, isWordU u = true) (hrep : rep ≠ [])
    (hrw : ∀ u ∈ rep, isWordU u = true) :
    wordRuns (replaceWord name rep text) = (wordRuns text).map (substRun name rep) := by
  unfold replaceWord
  rw [replaceWord_eq_specF name rep hn hwn text.length text (Nat.le_refl _)]
  exact spec_runs name rep hrep hrw text.length text (Nat.le_refl _)

theorem matchF_all {α : Type} (tryFn : Option Nat → List Nat → Option (α × Nat))
    (P : α → Prop)
    (h : ∀ prev l a k, tryFn prev l = some (a, k) → P a) :
    ∀ (fuel : Nat) (prev : Option Nat) (l : List Nat),
      ∀ a ∈ matchF tryFn fuel prev l, P a := by
  intro fuel
  induction fuel with
  | zero => intro prev l a ha; simp [matchF] at ha
  | succ f ih =>
    intro prev l a ha
    cases l with
    | nil => simp [matchF] at ha
    | cons c tl =>
      cases htry : tryFn prev (c :: tl) with
      | none =>
        simp only [matchF, htry] at ha
        exact ih _ _ a ha
      | some m =>
        obtain ⟨b, k⟩ := m
        simp only [matchF, htry] at ha
        rcases List.mem_cons.mp ha with rfl | ha2
        · exact h prev (c :: tl) a k htry
        · exact ih _ _ a ha2

theorem identStart_word (c : Nat) (h : isIdentStartU c = true) : isWordU c = true := by
  simp only [isIdentStartU, Bool.or_eq_true, Bool.and_eq_true,
    decide_eq_true_eq, beq_iff_eq] at h
  simp only [isWordU, Bool.or_eq_true, Bool.and_eq_true,
    decide_eq_true_eq, beq_iff_eq]
  omega

theorem matchLocal_shape (pw : Bool) (l a : List Nat) (k : Nat)
    (h : matchLocal pw l = some (a, k)) :
    a ≠ [] ∧ ∀ u ∈ a, isWordU u = true := by
  unfold matchLocal at h
  cases pw with
  | true => simp at h
  | false =>
    rw [if_neg (by simp)] at h
    cases hs : stripPre (lit "local") l with
    | none => rw [hs] at h; simp at h
    | some rest =>
      rw [hs] at h
      dsimp only at h
      by_cases hw0 : rest.takeWhile isWsU = []
      · rw [if_pos hw0] at h; simp at h
      · rw [if_neg hw0] at h
        cases hd : rest.drop (rest.takeWhile isWsU).length with
        | nil => rw [hd] at h; simp at h
        | cons c tl =>
          rw [hd] at h
          have h2 : (if isIdentStartU c = true then
              some (c :: tl.takeWhile isWordU,
                5 + (rest.takeWhile isWsU).length + (c :: tl.takeWhile isWordU).length)
            else none) = some (a, k) := h
          by_cases hid : isIdentStartU c = true
          · rw [if_pos hid] at h2
            have ha : a = c :: tl.takeWhile isWordU := by
              have := (Option.some.injEq _ _).mp h2
              exact (congrArg Prod.fst this).symm
            subst ha
            refine ⟨by simp, ?_⟩
            intro u hu
            rcases List.mem_cons.mp hu with rfl | hu2
            · exact identStart_word u hid
            · exact List.mem_takeWhile_imp hu2
          · rw [if_neg hid] at h2
            simp at h2

theorem matchFunc_shape (pw : Bool) (l a : List Nat) (k : Nat)
    (h : matchFunc pw l = some (a, k)) :
    a ≠ [] ∧ ∀ u ∈ a, isWordU u = true := by
  unfold matchFunc at h
  cases pw with
  | true => simp at h
  | false =>
    rw [if_neg (by simp)] at h
    cases hs : stripPre (lit "function") l with
    | none => rw [hs] at h; simp at h
    | some rest =>
      rw [hs] at h
      dsimp only at h
      by_cases hw0 : rest.takeWhile isWsU = []
      · rw [if_pos hw0] at h; simp at h
      · rw [if_neg hw0] at h
        cases hd : rest.drop (rest.takeWhile isWsU).length with
        | nil => rw [hd] at h; simp at h
        | cons c tl =>
          rw [hd] at h
          have h2 : (if isIdentStartU c = true then
              some (c :: tl.takeWhile isWordU,
                8 + (rest.takeWhile isWsU).length + (c :: tl.takeWhile isWordU).length)
            else none) = some (a, k) := h
          by_cases hid : isIdentStartU c = true
          · rw [if_pos hid] at h2
            have ha : a = c :: tl.takeWhile isWordU := by
              have := (Option.some.injEq _ _).mp h2
              exact (congrArg Prod.fst this).symm
            subst ha
            refine ⟨by simp, ?_⟩
            intro u hu
            rcases List.mem_cons.mp hu with rfl | hu2
            · exact identStart_word u hid
            · exact List.mem_takeWhile_imp hu2
          · rw [if_neg hid] at h2
            simp at h2

theorem localDeclNames_shape (code : List Nat) :
    ∀ a ∈ localDeclNames code, a ≠ [] ∧ ∀ u ∈ a, isWordU u = true := by
  intro a ha
  exact matchF_all _ _
    (fun prev l a k h => matchLocal_shape (prevWord prev) l a k h)
    _ _ _ a ha

theorem funcDeclNames_shape (code : List Nat) :
    ∀ a ∈ funcDeclNames code, a ≠ [] ∧ ∀ u ∈ a, isWordU u = true := by
  intro a ha
  exact matchF_all _ _
    (fun prev l a k h => matchFunc_shape (prevWord prev) l a k h)
    _ _ _ a ha

theorem gen_ne_nil (i : Nat) : generateObfuscatedName i ≠ [] := by
  intro hnil
  have h4 := padTo4_len (toHex (i + 1))
  unfold generateObfuscatedName at hnil
  have hl := congrArg List.length hnil
  rw [List.length_append, List.length_nil] at hl
  omega

theorem gen_word (i : Nat) : ∀ u ∈ generateObfuscatedName i, isWordU u = true := by
  intro u hu
  unfold generateObfuscatedName at hu
  rcases List.mem_append.mp hu with h1 | h1
  · have hi4 : i % 4 = 0 ∨ i % 4 = 1 ∨ i % 4 = 2 ∨ i % 4 = 3 := by omega
    rcases hi4 with hi | hi | hi | hi <;> rw [hi] at h1
    · rw [namePrefix0] at h1
      rcases (by simpa using h1 : u = 95 ∨ u = 48 ∨ u = 120) with rfl | rfl | rfl <;> decide
    · rw [namePrefix1] at h1
      rcases (by simpa using h1 : u = 95) with rfl
      decide
    · rw [namePrefix2] at h1
      rcases (by simpa using h1 : u = 95 ∨ u = 95) with rfl | rfl <;> decide
    · rw [namePrefix3] at h1
      rcases (by simpa using h1 : u = 95 ∨ u = 95 ∨ u = 95) with rfl | rfl | rfl <;> decide
  · have := padTo4_digits (i + 1) u h1
    simp only [isWordU, Bool.or_eq_true, Bool.and_eq_true,
      decide_eq_true_eq, beq_iff_eq]
    omega

theorem buildPairs_shape (gf : List (List Nat × List Nat) → List Nat)
    (Q R : List Nat → Prop) (hg : ∀ acc, R (gf acc)) :
    ∀ (names : List (List Nat)) (acc : List (List Nat × List Nat)),
      (∀ n ∈ names, Q n) → (∀ p ∈ acc, Q p.1 ∧ R p.2) →
      ∀ p ∈ names.foldl
        (fun acc name =>
          if acc.any (fun q => q.1 == name) || isReservedWord name then acc
          else acc ++ [(name, gf acc)]) acc,
        Q p.1 ∧ R p.2 := by
  intro names
  induction names with
  | nil => intro acc _ hacc p hp; exact hacc p hp
  | cons n tl ih =>
    intro acc hn hacc p hp
    rw [List.foldl_cons] at hp
    by_cases hc : (acc.any (fun q => q.1 == n) || isReservedWord n) = true
    · rw [if_pos hc] at hp
      exact ih acc (fun m hm => hn m (by simp [hm])) hacc p hp
    · rw [if_neg hc] at hp
      refine ih _ (fun m hm => hn m (by simp [hm])) ?_ p hp
      intro q hq
      rcases List.mem_append.mp hq with h1 | h1
      · exact hacc q h1
      · have hq2 : q = (n, gf acc) := by simpa using h1
        subst hq2
        exact ⟨hn n (by simp), hg acc⟩

theorem renamePairs_shape (code : List Nat) :
    ∀ p ∈ renamePairs code,
      (p.1 ≠ [] ∧ ∀ u ∈ p.1, isWordU u = true) ∧
      (p.2 ≠ [] ∧ ∀ u ∈ p.2, isWordU u = true) := by
  intro p hp
  unfold renamePairs at hp
  rcases List.mem_append.mp hp with h1 | h1
  · exact buildPairs_shape (fun acc => generateObfuscatedName acc.length)
      (fun nm => nm ≠ [] ∧ ∀ u ∈ nm, isWordU u = true)
      (fun r => r ≠ [] ∧ ∀ u ∈ r, isWordU u = true)
      (fun acc => ⟨gen_ne_nil _, gen_word _⟩)
      (localDeclNames code) [] (localDeclNames_shape code) (by simp) p h1
  · exact buildPairs_shape
      (fun acc => generateObfuscatedName ((obfVarPairs code).length + acc.length))
      (fun nm => nm ≠ [] ∧ ∀ u ∈ nm, isWordU u = true)
      (fun r => r ≠ [] ∧ ∀ u ∈ r, isWordU u = true)
      (fun acc => ⟨gen_ne_nil _, gen_word _⟩)
      (funcDeclNames code) [] (funcDeclNames_shape code) (by simp) p h1

theorem obfuscate_output_rename (o : RandomOracle) (code : List Nat)
    (st : Option Settings) (hvr : resolvedVR st = true)
    (hse : resolvedSE st = false) (hcf : resolvedCF st = false) :
    (obfuscateCode o code st).outputCode =
      (renamePairs code).foldl (fun t q => replaceWord q.1 q.2 t) code := by
  simp [obfuscateCode, hvr, hse, hcf, renamePairs, replaceAllWords, List.foldl_append]

theorem key_not_in_runs_fold (key : List Nat) :
    ∀ (qs : List (List Nat × List Nat)) (t : List Nat),
      (∀ q ∈ qs, (q.1 ≠ [] ∧ ∀ u ∈ q.1, isWordU u = true) ∧
        (q.2 ≠ [] ∧ ∀ u ∈ q.2, isWordU u = true)) →
      (∀ q ∈ qs, q.2 ≠ key) →
      key ∉ wordRuns t →
      key ∉ wordRuns (qs.foldl (fun t q => replaceWord q.1 q.2 t) t) := by
  intro qs
  induction qs with
  | nil => intro t _ _ h; exact h
  | cons q qs ih =>
    intro t hsh hne h
    rw [List.foldl_cons]
    apply ih _ (fun r hr => hsh r (by simp [hr])) (fun r hr => hne r (by simp [hr]))
    rw [runs_replaceWord q.1 q.2 t (hsh q (by simp)).1.1 (hsh q (by simp)).1.2
      (hsh q (by simp)).2.1 (hsh q (by simp)).2.2]
    intro hmem
    rcases List.mem_map.mp hmem with ⟨r, hr, hsub⟩
    unfold substRun at hsub
    by_cases hrq : r = q.1
    · rw [if_pos hrq] at hsub
      exact hne q (by simp) hsub
    · rw [if_neg hrq] at hsub
      subst hsub
      exact h hr

theorem key_elim (key g t : List Nat) (hn : key ≠ [])
    (hwn : ∀ u ∈ key, isWordU u = true) (hg : g ≠ [])
    (hgw : ∀ u ∈ g, isWordU u = true) (hgk : g ≠ key) :
    key ∉ wordRuns (replaceWord key g t) := by
  rw [runs_replaceWord key g t hn hwn hg hgw]
  intro hmem
  rcases List.mem_map.mp hmem with ⟨r, hr, hsub⟩
  unfold substRun at hsub
  by_cases hrq : r = key
  · rw [if_pos hrq] at hsub
    exact hgk hsub
  · rw [if_neg hrq] at hsub
    exact hrq hsub

/-- C4 (counterexample): on `local _0x0001` the single mapped identifier
`_0x0001` is renamed to `generateObfuscatedName 0 = _0x0001`, i.e. to itself,
so the original name still occurs as a whole word in the output. -/
theorem c4_counterexample :
    (renamePairs (lit "local _0x0001")).map Prod.fst = [lit "_0x0001"] ∧
    hasWholeWord (lit "_0x0001")
      (obfuscateCode oracle0 (lit "local _0x0001")
        (some ⟨some true, some false, some false, none⟩)).outputCode = true := by
  constructor
  · decide
  · decide

/-- C4 (amended): with renaming enabled, string encoding and dead-code
injection disabled, and provided no generated name of the run coincides with
any mapped original name, every key of the run's identifier mapping is absent
from the output as a whole-word match. -/
theorem c4_amended (o : RandomOracle) (code : List Nat) (st : Option Settings)
    (hvr : resolvedVR st = true) (hse : resolvedSE st = false)
    (hcf : resolvedCF st = false)
    (hcol : ∀ p ∈ renamePairs code, ∀ q ∈ renamePairs code, q.2 ≠ p.1) :
    ∀ p ∈ renamePairs code,
      hasWholeWord p.1 (obfuscateCode o code st).outputCode = false := by
  intro p hp
  have hsh := renamePairs_shape code
  have hpk := hsh p hp
  rw [obfuscate_output_rename o code st hvr hse hcf]
  obtain ⟨pre, post, hsplit⟩ := List.append_of_mem hp
  rw [hsplit, List.foldl_append, List.foldl_cons]
  have hnot : p.1 ∉ wordRuns (post.foldl (fun t q => replaceWord q.1 q.2 t)
      (replaceWord p.1 p.2 (pre.foldl (fun t q => replaceWord q.1 q.2 t) code))) := by
    apply key_not_in_runs_fold p.1 post _
      (fun r hr => hsh r (by rw [hsplit]; simp [hr]))
      (fun r hr => hcol p hp r (by rw [hsplit]; simp [hr]))
    exact key_elim p.1 p.2 _ hpk.1.1 hpk.1.2 hpk.2.1 hpk.2.2 (hcol p hp p hp)
  cases hb : hasWholeWord p.1 (post.foldl (fun t q => replaceWord q.1 q.2 t)
      (replaceWord p.1 p.2 (pre.foldl (fun t q => replaceWord q.1 q.2 t) code))) with
  | false => rfl
  | true =>
    exact absurd ((hasWW_iff_runs p.1 hpk.1.1 hpk.1.2 _ _ (Nat.le_refl _)).mp hb) hnot

/-- Witness for C4 (amended): the mapped name `player` of
`local player = 1` does not survive into the output. -/
theorem c4_amended_witness :
    hasWholeWord (lit "player")
      (obfuscateCode oracle0 (lit "local player = 1")
        (some ⟨some true, some false, some false, none⟩)).outputCode = false :=
  c4_amended oracle0 (lit "local player = 1")
    (some ⟨some true, some false, some false, none⟩) rfl rfl rfl
    (by decide) (lit "player", lit "_0x0001") (by decide)

/-- C6 (counterexample): for the single astral character U+1F600 (code units
0xD83D 0xDE00) the encode step keeps only the leading surrogate — so the
decode step yields a lone-surrogate literal, not the original content. -/
theorem c6_counterexample :
    decodeCharStep (encodeString oracle0 0 [55357, 56832] Level.light).1 =
      ([34, 55357, 34], 1) ∧
    ([34, 55357, 34] : List Nat) ≠ [34] ++ [55357, 56832] ++ [34] := by
  constructor
  · decide
  · decide

/-- Witness for C6 (amended) at the concrete content `hi`. -/
theorem c6_amended_witness :
    decodeCharStep (encodeString oracle0 0 (lit "hi") Level.light).1 =
      ([34] ++ lit "hi" ++ [34], 1) :=
  c6_amended oracle0 0 (lit "hi") (by decide)
    (by intro u hu; fin_cases hu <;> decide) (by decide)

/-!  ### Towards C7: a pass with no match anywhere is the identity -/

theorem anyMatchB_false_drop {α : Type} (f : List Nat → Option α) :
    ∀ (l : List Nat), anyMatchB f l = false → ∀ n, f (l.drop n) = none := by
  intro l
  induction l with
  | nil =>
    intro h n
    rw [List.drop_nil]
    cases hf : f [] with
    | none => rfl
    | some a => simp only [anyMatchB, hf] at h; simp at h
  | cons c tl ih =>
    intro h n
    simp only [anyMatchB, Bool.or_eq_false_iff] at h
    cases n with
    | zero =>
      rw [List.drop_zero]
      cases hf : f (c :: tl) with
      | none => rfl
      | some a => rw [hf] at h; simp at h
    | succ n => rw [List.drop_succ_cons]; exact ih h.2 n

theorem anyMatchB_true_ex {α : Type} (f : List Nat → Option α) :
    ∀ (l : List Nat), anyMatchB f l = true → ∃ n, (f (l.drop n)).isSome = true := by
  intro l
  induction l with
  | nil => intro h; exact ⟨0, by simpa [anyMatchB] using h⟩
  | cons c tl ih =>
    intro h
    simp only [anyMatchB, Bool.or_eq_true] at h
    cases h with
    | inl h => exact ⟨0, h⟩
    | inr h =>
      obtain ⟨n, hn⟩ := ih h
      exact ⟨n + 1, by simpa [List.drop_succ_cons] using hn⟩

theorem anyMatchB_of_drop {α : Type} (f : List Nat → Option α) :
    ∀ (l : List Nat) (n : Nat), (f (l.drop n)).isSome = true → anyMatchB f l = true := by
  intro l
  induction l with
  | nil =>
    intro n h
    rw [List.drop_nil] at h
    simpa [anyMatchB] using h
  | cons c tl ih =>
    intro n h
    cases n with
    | zero => rw [List.drop_zero] at h; simp [anyMatchB, h]
    | succ n =>
      rw [List.drop_succ_cons] at h
      simp [anyMatchB, ih n h]

theorem replS_nomatch {σ : Type}
    (tryFn : σ → Option Nat → List Nat → Option (List Nat × Nat × σ)) :
    ∀ (fuel : Nat) (l : List Nat) (s : σ) (prev : Option Nat),
      (∀ (n : Nat) (s' : σ) (p : Option Nat), tryFn s' p (l.drop n) = none) →
      replS tryFn fuel s prev l = (l, s) := by
  intro fuel
  induction fuel with
  | zero => intro l s prev _; rfl
  | succ f ih =>
    intro l s prev h
    cases l with
    | nil => rfl
    | cons c tl =>
      have h0 : tryFn s prev (c :: tl) = none := h 0 s prev
      simp only [replS, h0]
      have htl : ∀ (n : Nat) (s' : σ) (p : Option Nat), tryFn s' p (tl.drop n) = none := by
        intro n s' p
        have hh := h (n + 1) s' p
        rwa [List.drop_succ_cons] at hh
      rw [ih tl s (some c) htl]

theorem matchF_nomatch {α : Type} (tryFn : Option Nat → List Nat → Option (α × Nat)) :
    ∀ (fuel : Nat) (l : List Nat) (prev : Option Nat),
      (∀ (n : Nat) (p : Option Nat), tryFn p (l.drop n) = none) →
      matchF tryFn fuel prev l = [] := by
  intro fuel
  induction fuel with
  | zero => intro l prev _; rfl
  | succ f ih =>
    intro l prev h
    cases l with
    | nil => rfl
    | cons c tl =>
      have h0 : tryFn prev (c :: tl) = none := h 0 prev
      simp only [matchF, h0]
      exact ih tl (some c) (fun n p => by
        have hh := h (n + 1) p
        rwa [List.drop_succ_cons] at hh)

theorem decodeCharStep_id (s : List Nat) (h : anyMatchB matchCharCall s = false) :
    decodeCharStep s = (s, 0) := by
  have hm : ∀ (n : Nat) (s' : Nat) (p : Option Nat),
      (fun (cnt : Nat) (_ : Option Nat) (l : List Nat) =>
        (matchCharCall l).map fun m => (decodeCharArgs m.1, m.2, cnt + 1))
        s' p (s.drop n) = none := by
    intro n s' p
    simp only [anyMatchB_false_drop matchCharCall s h n, Option.map_none']
  unfold decodeCharStep
  rw [replS_nomatch _ (s.length + 1) s 0 none hm]

theorem decodePairStep_id (s : List Nat) (h : anyMatchB matchPairCall s = false) :
    decodePairStep s = (s, 0) := by
  have hm : ∀ (n : Nat) (s' : Nat) (p : Option Nat),
      (fun (cnt : Nat) (_ : Option Nat) (l : List Nat) =>
        (matchPairCall l).map fun m =>
          ([34, fromCharCodeU (parseIntJS m.1.1), fromCharCodeU (parseIntJS m.1.2), 34],
            m.2, cnt + 1))
        s' p (s.drop n) = none := by
    intro n s' p
    simp only [anyMatchB_false_drop matchPairCall s h n, Option.map_none']
  unfold decodePairStep
  rw [replS_nomatch _ (s.length + 1) s 0 none hm]

theorem hexVarMatches_nil (s : List Nat) (h : anyMatchB matchHexVar s = false) :
    hexVarMatches s = [] := by
  unfold hexVarMatches
  exact matchF_nomatch _ (s.length + 1) s none
    (fun n p => anyMatchB_false_drop matchHexVar s h n)

theorem restoreNames_nil (t : List Nat) : restoreNames [] t = (t, 0) := rfl

theorem removePat_id (a b s : List Nat) (h : anyMatchB (matchLitWsLit a b) s = false) :
    removePat a b s = s := by
  have hm : ∀ (n : Nat) (s' : Unit) (p : Option Nat),
      (fun (u : Unit) (_ : Option Nat) (l : List Nat) =>
        (matchLitWsLit a b l).map fun k => (([] : List Nat), k, u))
        s' p (s.drop n) = none := by
    intro n s' p
    simp only [anyMatchB_false_drop (matchLitWsLit a b) s h n, Option.map_none']
  unfold removePat
  rw [replS_nomatch _ (s.length + 1) s () none hm]

theorem dedup_nil : dedupKeepFirst [] = [] := rfl

/-- On text free of every recognized idiom, the whole deobfuscation run is
just the whitespace-collapse pass, with both counters zero. -/
theorem deobf_noidioms (s : List Nat) (h : noIdiomsB s = true) :
    deobfuscateCode s =
      { outputCode := collapseWs s, variablesRenamed := 0, stringsEncoded := 0 } := by
  have h6 := h
  simp only [noIdiomsB, Bool.and_eq_true, Bool.not_eq_true'] at h6
  obtain ⟨⟨⟨⟨⟨h1, h2⟩, h3⟩, h4⟩, h5⟩, h6'⟩ := h6
  have e1 : decodeCharStep s = (s, 0) := decodeCharStep_id s h1
  have e2 : decodePairStep s = (s, 0) := decodePairStep_id s h2
  have e3 : hexVarMatches s = [] := hexVarMatches_nil s h3
  have e4 : removePat (lit "if true then") (lit "end") s = s := removePat_id _ _ s h4
  have e5 : removePat (lit "while false do") (lit "end") s = s := removePat_id _ _ s h5
  have e6 : removePat (lit "for i = 1, 0 do") (lit "end") s = s := removePat_id _ _ s h6'
  simp only [deobfuscateCode, e1, e2, e3, e4, e5, e6, dedup_nil, restoreNames_nil,
    Nat.add_zero, Nat.zero_add]

/-!  ### Towards C7: the whitespace-collapse pass and its structural normal
form agree -/

theorem matchWs3_ne10 (c : Nat) (tl : List Nat) (h : c ≠ 10) :
    matchWs3 (c :: tl) = none := by
  unfold matchWs3
  split
  · next heq =>
    injection heq with h1 _
    exact absurd h1 h
  · rfl

theorem normWsF_congr :
    ∀ (f1 f2 : Nat) (l : List Nat), l.length < f1 → l.length < f2 →
      normWsF f1 l = normWsF f2 l := by
  intro f1
  induction f1 with
  | zero => intro f2 l h1 _; exact absurd h1 (Nat.not_lt_zero _)
  | succ f ih =>
    intro f2 l h1 h2
    cases f2 with
    | zero => exact absurd h2 (Nat.not_lt_zero _)
    | succ f2 =>
      cases l with
      | nil => rfl
      | cons c tl =>
        have hlc : (c :: tl).length = tl.length + 1 := by simp
        simp only [normWsF]
        by_cases hc : isWsU c = true
        · rw [if_pos hc, if_pos hc]
          have hdl : ((c :: tl).dropWhile isWsU).length ≤ tl.length := by
            rw [List.dropWhile_cons, if_pos hc]
            exact length_dropWhileU _ tl
          rw [ih f2 _ (by omega) (by omega)]
        · rw [if_neg hc, if_neg hc, ih f2 tl (by omega) (by omega)]

theorem replS_ws3_prev :
    ∀ (f : Nat) (s : Unit) (p1 p2 : Option Nat) (l : List Nat),
      replS ws3Try f s p1 l = replS ws3Try f s p2 l := by
  intro f
  induction f with
  | zero => intro s p1 p2 l; rfl
  | succ f ih =>
    intro s p1 p2 l
    cases l with
    | nil => rfl
    | cons c tl =>
      simp only [replS]
      cases htry : ws3Try s p1 (c :: tl) with
      | none =>
        have htry2 : ws3Try s p2 (c :: tl) = none := htry
        rw [htry2, ih s (some c) (some c) tl]
      | some m =>
        have htry2 : ws3Try s p2 (c :: tl) = some m := htry
        rw [htry2]

theorem drop_length_takeWhile (p : Nat → Bool) :
    ∀ (l : List Nat), l.drop (l.takeWhile p).length = l.dropWhile p := by
  intro l
  induction l with
  | nil => rfl
  | cons c tl ih =>
    rw [List.takeWhile_cons, List.dropWhile_cons]
    by_cases hc : p c = true
    · rw [if_pos hc, if_pos hc, List.length_cons, List.drop_succ_cons, ih]
    · rw [if_neg hc, if_neg hc, List.length_nil, List.drop_zero]

theorem replS_ws3_no10 :
    ∀ (w : List Nat), (∀ u ∈ w, u ≠ 10) →
      ∀ (f : Nat) (X : List Nat) (s : Unit) (prev : Option Nat),
        X.length + w.length < f →
        (replS ws3Try f s prev (w ++ X)).1 =
          w ++ (replS ws3Try (X.length + 1) () none X).1 := by
  intro w
  induction w with
  | nil =>
    intro _ f X s prev hf
    rw [List.nil_append, List.nil_append]
    cases s
    rw [replS_ws3_prev f () prev none X,
      replS_congr ws3Try f (X.length + 1) () none X (by simpa using hf) (by omega)]
  | cons c w' ih =>
    intro hw f X s prev hf
    cases f with
    | zero => exact absurd hf (by omega)
    | succ f =>
      rw [List.cons_append]
      have hm : ws3Try s prev (c :: (w' ++ X)) = none := by
        unfold ws3Try
        rw [matchWs3_ne10 c (w' ++ X) (hw c (by simp))]
        rfl
      simp only [replS, hm]
      rw [List.cons_append]
      have := ih (fun u hu => hw u (by simp [hu])) f X s (some c)
        (by simp at hf ⊢; omega)
      rw [this]

theorem replS_ws3_low :
    ∀ (w : List Nat), (∀ u ∈ w, isWsU u = true) → w.count 10 < 3 →
      ∀ (X : List Nat), (∀ u ∈ X.take 1, isWsU u = false) →
      ∀ (f : Nat) (s : Unit) (prev : Option Nat),
        X.length + w.length < f →
        (replS ws3Try f s prev (w ++ X)).1 =
          w ++ (replS ws3Try (X.length + 1) () none X).1 := by
  intro w
  induction w with
  | nil =>
    intro _ _ X _ f s prev hf
    rw [List.nil_append, List.nil_append]
    cases s
    rw [replS_ws3_prev f () prev none X,
      replS_congr ws3Try f (X.length + 1) () none X (by simpa using hf) (by omega)]
  | cons c w' ih =>
    intro hw hcnt X hX f s prev hf
    cases f with
    | zero => exact absurd hf (by omega)
    | succ f =>
      rw [List.cons_append]
      have hm : ws3Try s prev (c :: (w' ++ X)) = none := by
        unfold ws3Try
        by_cases hc : c = 10
        · subst hc
          unfold matchWs3
          have hrun : (10 :: (w' ++ X)).takeWhile isWsU = 10 :: w' := by
            have : ((10 :: w') ++ X).takeWhile isWsU = 10 :: w' :=
              takeWhile_append_stop isWsU (10 :: w') X hw hX
            simpa using this
          rw [hrun]
          rw [if_neg (by omega)]
          rfl
        · rw [matchWs3_ne10 c (w' ++ X) hc]
          rfl
      simp only [replS, hm]
      rw [List.cons_append]
      have hcnt' : w'.count 10 < 3 := by
        have hsub : w'.count 10 ≤ (c :: w').count 10 := by
          rw [List.count_cons]
          split <;> omega
        omega
      have := ih (fun u hu => hw u (by simp [hu])) hcnt' X hX f s (some c)
        (by simp at hf ⊢; omega)
      rw [this]

theorem takeWhile_append_of_memF (p : Nat → Bool) :
    ∀ (a b : List Nat), (∃ x ∈ a, p x = false) →
      (a ++ b).takeWhile p = a.takeWhile p := by
  intro a
  induction a with
  | nil => intro b h; obtain ⟨x, hx, _⟩ := h; simp at hx
  | cons c a' ih =>
    intro b h
    rw [List.cons_append, List.takeWhile_cons, List.takeWhile_cons]
    by_cases hc : p c = true
    · rw [if_pos hc, if_pos hc]
      obtain ⟨x, hx, hpx⟩ := h
      have hxa : x ∈ a' := by
        cases List.mem_cons.mp hx with
        | inl he => rw [he, hc] at hpx; simp at hpx
        | inr hm => exact hm
      rw [ih b ⟨x, hxa, hpx⟩]
    · rw [if_neg hc, if_neg hc]

theorem drop_upToLastNl (w : List Nat) :
    w.drop (upToLastNl w) = (w.reverse.takeWhile (fun u => u != 10)).reverse := by
  obtain ⟨T, hT⟩ : ∃ T, w.reverse.takeWhile (fun u => u != 10) = T := ⟨_, rfl⟩
  obtain ⟨D, hD⟩ : ∃ D, w.reverse.dropWhile (fun u => u != 10) = D := ⟨_, rfl⟩
  have hsplit : T ++ D = w.reverse := by
    rw [← hT, ← hD]
    exact List.takeWhile_append_dropWhile _ _
  have hw : w = D.reverse ++ T.reverse := by
    conv_lhs => rw [← List.reverse_reverse w]
    rw [← hsplit, List.reverse_append]
  have hlen2 : T.length + D.length = w.length := by
    rw [← List.length_append, hsplit, List.length_reverse]
  have hidx : upToLastNl w = D.reverse.length := by
    unfold upToLastNl
    rw [hT, List.length_reverse]
    omega
  rw [hidx, hT]
  conv_lhs => rw [hw]
  exact List.drop_left _ _

theorem upToLastNl_le (w : List Nat) : upToLastNl w ≤ w.length := by
  unfold upToLastNl
  omega

theorem upToLastNl_pos (w : List Nat) (h : (10 : Nat) ∈ w) : 1 ≤ upToLastNl w := by
  have hpre : (w.reverse.takeWhile (fun u => u != 10)) <+: w.reverse :=
    List.takeWhile_prefix _
  unfold upToLastNl
  by_contra hc
  push_neg at hc
  have heq : (w.reverse.takeWhile (fun u => u != 10)).length = w.reverse.length := by
    have hle := hpre.length_le
    rw [List.length_reverse] at hle ⊢
    omega
  have ht := hpre.eq_of_length heq
  have h10 : (10 : Nat) ∈ w.reverse.takeWhile (fun u => u != 10) := by
    rw [ht, List.mem_reverse]
    exact h
  have hmem := List.mem_takeWhile_imp h10
  simp at hmem

theorem matchWs3_head10 (tl : List Nat) :
    matchWs3 (10 :: tl) =
      if 3 ≤ ((10 :: tl).takeWhile isWsU).count 10
      then some (upToLastNl ((10 :: tl).takeWhile isWsU)) else none := by
  unfold matchWs3
  split
  · next heq =>
    injection heq with h1 h2
    rw [h2]
  · next hne => exact absurd rfl (hne tl)

theorem collapse_norm_run (run rest : List Nat)
    (hrunws : ∀ u ∈ run, isWsU u = true)
    (hrest1 : ∀ u ∈ rest.take 1, isWsU u = false) :
    ∀ (f : Nat), run.length + rest.length < f →
      (replS ws3Try f () none (run ++ rest)).1 =
        squashRun run ++ (replS ws3Try (rest.length + 1) () none rest).1 := by
  intro f hf
  by_cases hcnt : 3 ≤ run.count 10
  · -- the run squashes: decompose it around its first and last newline
    obtain ⟨pre, hpre⟩ : ∃ p, run.takeWhile (fun u => u != 10) = p := ⟨_, rfl⟩
    obtain ⟨run2, hrun2⟩ : ∃ r, run.dropWhile (fun u => u != 10) = r := ⟨_, rfl⟩
    have hpresplit : pre ++ run2 = run := by
      rw [← hpre, ← hrun2]
      exact List.takeWhile_append_dropWhile _ _
    have h10run : (10 : Nat) ∈ run := by
      by_contra hns
      rw [List.count_eq_zero.mpr hns] at hcnt
      omega
    have hpre10 : ∀ u ∈ pre, u ≠ 10 := by
      intro u hu
      rw [← hpre] at hu
      have hmu := List.mem_takeWhile_imp hu
      simpa using hmu
    have h10run2 : (10 : Nat) ∈ run2 := by
      rcases List.mem_append.mp (hpresplit ▸ h10run) with hin | hin
      · exact absurd rfl (hpre10 10 hin)
      · exact hin
    have hrun2ws : ∀ u ∈ run2, isWsU u = true :=
      fun u hu => hrunws u (hpresplit ▸ List.mem_append_right _ hu)
    have hcnt2 : 3 ≤ run2.count 10 := by
      have hca := List.count_append 10 pre run2
      rw [hpresplit] at hca
      have hzero : pre.count 10 = 0 :=
        List.count_eq_zero.mpr (fun hmem => hpre10 10 hmem rfl)
      omega
    obtain ⟨r2tl, hr2⟩ : ∃ r2tl, run2 = 10 :: r2tl := by
      cases hd : run2 with
      | nil => rw [hd] at h10run2; simp at h10run2
      | cons d r' =>
        have hdf := dropWhile_head_false (fun u => u != 10) run d r' (by rw [hrun2, hd])
        have hd10 : d = 10 := by simpa using hdf
        exact ⟨r', by rw [hd10]⟩
    have hk1 : 1 ≤ upToLastNl run2 := upToLastNl_pos run2 h10run2
    have hkle : upToLastNl run2 ≤ run2.length := upToLastNl_le run2
    obtain ⟨post, hpost⟩ : ∃ p, (run2.reverse.takeWhile (fun u => u != 10)).reverse = p :=
      ⟨_, rfl⟩
    have hdropk : run2.drop (upToLastNl run2) = post := by
      rw [← hpost]
      exact drop_upToLastNl run2
    have hpost10 : ∀ u ∈ post, u ≠ 10 := by
      intro u hu
      rw [← hpost, List.mem_reverse] at hu
      have hmu := List.mem_takeWhile_imp hu
      simpa using hmu
    have hpostlen : post.length < run2.length := by
      have hld : (run2.drop (upToLastNl run2)).length = run2.length - upToLastNl run2 :=
        List.length_drop _ _
      rw [hdropk] at hld
      have hr2len : 1 ≤ run2.length := by rw [hr2]; simp
      omega
    have hrevsplit : run.reverse = run2.reverse ++ pre.reverse := by
      rw [← hpresplit, List.reverse_append]
    have hpost_shift : run.reverse.takeWhile (fun u => u != 10) =
        run2.reverse.takeWhile (fun u => u != 10) := by
      rw [hrevsplit]
      exact takeWhile_append_of_memF _ _ _
        ⟨10, by rw [List.mem_reverse]; exact h10run2, by simp⟩
    have hsq : squashRun run = (pre ++ [10, 10]) ++ post := by
      unfold squashRun
      rw [if_pos hcnt, hpost_shift, hpre, hpost]
    have hlform : run ++ rest = pre ++ (run2 ++ rest) := by
      rw [← List.append_assoc, hpresplit]
    have hplen : pre.length + run2.length = run.length := by
      rw [← List.length_append, hpresplit]
    have hstep1 : (replS ws3Try f () none (run ++ rest)).1 =
        pre ++ (replS ws3Try ((run2 ++ rest).length + 1) () none (run2 ++ rest)).1 := by
      conv_lhs => rw [hlform]
      refine replS_ws3_no10 pre hpre10 f (run2 ++ rest) () none ?_
      rw [List.length_append]
      omega
    have hrun2full : (run2 ++ rest).takeWhile isWsU = run2 :=
      takeWhile_append_stop isWsU run2 rest hrun2ws hrest1
    have hmatch : matchWs3 (run2 ++ rest) = some (upToLastNl run2) := by
      have hform : run2 ++ rest = 10 :: (r2tl ++ rest) := by rw [hr2]; rfl
      rw [hform, matchWs3_head10, ← hform, hrun2full, if_pos hcnt2]
    have hstep2 : (replS ws3Try ((run2 ++ rest).length + 1) () none (run2 ++ rest)).1 =
        [10, 10] ++ (post ++ (replS ws3Try (rest.length + 1) () none rest).1) := by
      obtain ⟨x, xs, hxs⟩ : ∃ x xs, run2 ++ rest = x :: xs := by
        rw [hr2]
        exact ⟨10, r2tl ++ rest, rfl⟩
      have hws3 : ws3Try () none (x :: xs) = some ([10, 10], upToLastNl run2, ()) := by
        rw [← hxs]
        unfold ws3Try
        rw [hmatch]
        rfl
      rw [hxs]
      simp only [replS, hws3]
      congr 1
      rw [Nat.max_eq_left hk1]
      rw [← hxs, List.drop_append_of_le_length hkle, hdropk]
      refine replS_ws3_no10 post hpost10 ((run2 ++ rest).length) rest () _ ?_
      rw [List.length_append]
      omega
    rw [hstep1, hstep2, hsq]
    simp [List.append_assoc]
  · -- fewer than three newlines: the run is copied verbatim
    have hcnt' : run.count 10 < 3 := by omega
    have hsq : squashRun run = run := by
      unfold squashRun
      rw [if_neg hcnt]
    rw [hsq]
    exact replS_ws3_low run hrunws hcnt' rest hrest1 f () none (by omega)

/-- On any input, the whitespace-collapse driver computes the structural
normal form: every maximal whitespace run is squashed. -/
theorem collapse_norm_main :
    ∀ (N : Nat) (l : List Nat), l.length ≤ N →
      (replS ws3Try (l.length + 1) () none l).1 = normWsF (l.length + 1) l := by
  intro N
  induction N with
  | zero =>
    intro l hl
    have hnil : l = [] := List.length_eq_zero.mp (Nat.le_zero.mp hl)
    rw [hnil]
    rfl
  | succ N ih =>
    intro l hl
    cases l with
    | nil => rfl
    | cons c tl =>
      rw [List.length_cons]
      have htlN : tl.length ≤ N := by
        rw [List.length_cons] at hl
        omega
      by_cases hws : isWsU c = true
      · -- whitespace head: one maximal run, then the remainder
        have hsplit : (c :: tl).takeWhile isWsU ++ (c :: tl).dropWhile isWsU = c :: tl :=
          List.takeWhile_append_dropWhile _ _
        have hrunws : ∀ u ∈ (c :: tl).takeWhile isWsU, isWsU u = true :=
          fun u hu => List.mem_takeWhile_imp hu
        have hrest1 : ∀ u ∈ ((c :: tl).dropWhile isWsU).take 1, isWsU u = false := by
          intro u hu
          cases hr : (c :: tl).dropWhile isWsU with
          | nil => rw [hr] at hu; simp at hu
          | cons d r' =>
            rw [hr] at hu
            simp at hu
            rw [hu]
            exact dropWhile_head_false isWsU (c :: tl) d r' hr
        have hrestlen : ((c :: tl).dropWhile isWsU).length ≤ tl.length := by
          rw [List.dropWhile_cons, if_pos hws]
          exact length_dropWhileU _ tl
        have hlen : ((c :: tl).takeWhile isWsU).length +
            ((c :: tl).dropWhile isWsU).length = tl.length + 1 := by
          rw [← List.length_append, hsplit, List.length_cons]
        have hihrest := ih ((c :: tl).dropWhile isWsU) (le_trans hrestlen htlN)
        have hnorm : normWsF (tl.length + 1 + 1) (c :: tl) =
            squashRun ((c :: tl).takeWhile isWsU) ++
              normWsF (((c :: tl).dropWhile isWsU).length + 1)
                ((c :: tl).dropWhile isWsU) := by
          simp only [normWsF]
          rw [if_pos hws]
          congr 1
          exact normWsF_congr (tl.length + 1) _ _ (by omega) (by omega)
        rw [hnorm]
        have hdrv := collapse_norm_run ((c :: tl).takeWhile isWsU)
          ((c :: tl).dropWhile isWsU) hrunws hrest1 (tl.length + 1 + 1) (by omega)
        rw [hsplit] at hdrv
        rw [hdrv, hihrest]
      · -- non-whitespace head: copied verbatim on both sides
        have hc10 : c ≠ 10 := by
          intro he
          rw [he] at hws
          exact hws (by decide)
        have hm : ws3Try () none (c :: tl) = none := by
          unfold ws3Try
          rw [matchWs3_ne10 c tl hc10]
          rfl
        simp only [replS, hm]
        rw [replS_ws3_prev (tl.length + 1) () (some c) none tl, ih tl htlN]
        simp only [normWsF]
        rw [if_neg hws]

/-- The whitespace-collapse pass equals the structural normal form. -/
theorem collapse_eq_norm (s : List Nat) : collapseWs s = normWs s := by
  have h := collapse_norm_main s.length s le_rfl
  unfold collapseWs normWs
  exact h

/-!  ### Towards C7: the structural normal form is idempotent -/

theorem squash_ws (w : List Nat) (hw : ∀ u ∈ w, isWsU u = true) :
    ∀ u ∈ squashRun w, isWsU u = true := by
  intro u hu
  unfold squashRun at hu
  by_cases hc : 3 ≤ w.count 10
  · rw [if_pos hc] at hu
    rcases List.mem_append.mp hu with hu1 | hu2
    · rcases List.mem_append.mp hu1 with hp | h10
      · exact hw u ((List.takeWhile_prefix _).subset hp)
      · have h10' : u = 10 := by simpa using h10
        rw [h10']
        decide
    · rw [List.mem_reverse] at hu2
      have hmm := (List.takeWhile_prefix _).subset hu2
      rw [List.mem_reverse] at hmm
      exact hw u hmm
  · rw [if_neg hc] at hu
    exact hw u hu

theorem squashRun_count (w : List Nat) : (squashRun w).count 10 < 3 := by
  unfold squashRun
  by_cases hc : 3 ≤ w.count 10
  · rw [if_pos hc, List.count_append, List.count_append]
    have h1 : (w.takeWhile (fun u => u != 10)).count 10 = 0 :=
      List.count_eq_zero.mpr (fun hm => by
        have hmm := List.mem_takeWhile_imp hm
        simp at hmm)
    have h2 : ((w.reverse.takeWhile (fun u => u != 10)).reverse).count 10 = 0 :=
      List.count_eq_zero.mpr (fun hm => by
        rw [List.mem_reverse] at hm
        have hmm := List.mem_takeWhile_imp hm
        simp at hmm)
    rw [h1, h2]
    decide
  · rw [if_neg hc]
    omega

theorem squash_low (w : List Nat) (h : w.count 10 < 3) : squashRun w = w := by
  unfold squashRun
  rw [if_neg (by omega)]

theorem squash_idem (w : List Nat) : squashRun (squashRun w) = squashRun w :=
  squash_low _ (squashRun_count w)

theorem squash_ne_nil (w : List Nat) (h : w ≠ []) : squashRun w ≠ [] := by
  unfold squashRun
  by_cases hc : 3 ≤ w.count 10
  · rw [if_pos hc]
    simp
  · rw [if_neg hc]
    exact h

theorem norm_ws_head (w X : List Nat) (hw : ∀ u ∈ w, isWsU u = true) (hne : w ≠ [])
    (hX : ∀ u ∈ X.take 1, isWsU u = false) :
    normWs (w ++ X) = squashRun w ++ normWs X := by
  cases w with
  | nil => exact absurd rfl hne
  | cons c w' =>
    unfold normWs
    rw [List.cons_append, List.length_cons]
    simp only [normWsF]
    have hc : isWsU c = true := hw c (by simp)
    rw [if_pos hc]
    have htake : (c :: (w' ++ X)).takeWhile isWsU = c :: w' := by
      have hh : ((c :: w') ++ X).takeWhile isWsU = c :: w' :=
        takeWhile_append_stop isWsU (c :: w') X hw hX
      simpa using hh
    have hdrop : (c :: (w' ++ X)).dropWhile isWsU = X.dropWhile isWsU := by
      have hh : ((c :: w') ++ X).dropWhile isWsU = X.dropWhile isWsU :=
        dropWhile_append_all isWsU (c :: w') X hw
      simpa using hh
    have hdropX : X.dropWhile isWsU = X := dropWhile_none isWsU X hX
    rw [htake, hdrop, hdropX]
    congr 1
    exact normWsF_congr _ (X.length + 1) X (by rw [List.length_append]; omega) (by omega)

theorem norm_cons_nonws (c : Nat) (tl : List Nat) (hc : isWsU c = false) :
    normWs (c :: tl) = c :: normWs tl := by
  unfold normWs
  rw [List.length_cons]
  simp only [normWsF]
  rw [if_neg (by simp [hc])]

theorem norm_head_nonws (l : List Nat) (h : ∀ u ∈ l.take 1, isWsU u = false) :
    ∀ u ∈ (normWs l).take 1, isWsU u = false := by
  cases l with
  | nil => intro u hu; simp [normWs, normWsF] at hu
  | cons c tl =>
    have hc : isWsU c = false := h c (by simp)
    rw [norm_cons_nonws c tl hc]
    intro u hu
    simp at hu
    rw [hu]
    exact hc

theorem norm_idem_aux :
    ∀ (N : Nat) (l : List Nat), l.length ≤ N → normWs (normWs l) = normWs l := by
  intro N
  induction N with
  | zero =>
    intro l hl
    have hnil : l = [] := List.length_eq_zero.mp (Nat.le_zero.mp hl)
    rw [hnil]
    rfl
  | succ N ih =>
    intro l hl
    cases l with
    | nil => rfl
    | cons c tl =>
      have htlN : tl.length ≤ N := by
        rw [List.length_cons] at hl
        omega
      by_cases hws : isWsU c = true
      · have hsplit : (c :: tl).takeWhile isWsU ++ (c :: tl).dropWhile isWsU = c :: tl :=
          List.takeWhile_append_dropWhile _ _
        have hrunws : ∀ u ∈ (c :: tl).takeWhile isWsU, isWsU u = true :=
          fun u hu => List.mem_takeWhile_imp hu
        have hrun_ne : (c :: tl).takeWhile isWsU ≠ [] := by
          rw [List.takeWhile_cons, if_pos hws]
          simp
        have hrest1 : ∀ u ∈ ((c :: tl).dropWhile isWsU).take 1, isWsU u = false := by
          intro u hu
          cases hr : (c :: tl).dropWhile isWsU with
          | nil => rw [hr] at hu; simp at hu
          | cons d r' =>
            rw [hr] at hu
            simp at hu
            rw [hu]
            exact dropWhile_head_false isWsU (c :: tl) d r' hr
        have hrestN : ((c :: tl).dropWhile isWsU).length ≤ N := by
          have hh : ((c :: tl).dropWhile isWsU).length ≤ tl.length := by
            rw [List.dropWhile_cons, if_pos hws]
            exact length_dropWhileU _ tl
          omega
        have hn1 : normWs (c :: tl) =
            squashRun ((c :: tl).takeWhile isWsU) ++
              normWs ((c :: tl).dropWhile isWsU) := by
          conv_lhs => rw [← hsplit]
          exact norm_ws_head _ _ hrunws hrun_ne hrest1
        rw [hn1]
        have hXhead : ∀ u ∈ (normWs ((c :: tl).dropWhile isWsU)).take 1,
            isWsU u = false := norm_head_nonws _ hrest1
        have hn2 : normWs (squashRun ((c :: tl).takeWhile isWsU) ++
              normWs ((c :: tl).dropWhile isWsU)) =
            squashRun (squashRun ((c :: tl).takeWhile isWsU)) ++
              normWs (normWs ((c :: tl).dropWhile isWsU)) :=
          norm_ws_head _ _ (squash_ws _ hrunws) (squash_ne_nil _ hrun_ne) hXhead
        rw [hn2, squash_idem, ih _ hrestN]
      · have hc : isWsU c = false := Bool.eq_false_iff.mpr hws
        rw [norm_cons_nonws c tl hc, norm_cons_nonws c (normWs tl) hc, ih tl htlN]

theorem norm_idem (l : List Nat) : normWs (normWs l) = normWs l :=
  norm_idem_aux l.length l le_rfl

/-!  ### Towards C7: the collapse relation and transport of idiom-freedom -/

theorem collRel_append_left (x : List Nat) {s t : List Nat} (h : CollRel s t) :
    CollRel (x ++ s) (x ++ t) := by
  induction x with
  | nil => exact h
  | cons c x' ih => exact CollRel.copy c _ _ ih

theorem squash_decomp (run : List Nat) (hcnt : 3 ≤ run.count 10) :
    ∃ pre core post,
      run = pre ++ (core ++ post) ∧
      squashRun run = (pre ++ [10, 10]) ++ post ∧
      (∀ u ∈ core, u ∈ run) ∧ core ≠ [] := by
  obtain ⟨pre, hpre⟩ : ∃ p, run.takeWhile (fun u => u != 10) = p := ⟨_, rfl⟩
  obtain ⟨run2, hrun2⟩ : ∃ r, run.dropWhile (fun u => u != 10) = r := ⟨_, rfl⟩
  have hpresplit : pre ++ run2 = run := by
    rw [← hpre, ← hrun2]
    exact List.takeWhile_append_dropWhile _ _
  have h10run : (10 : Nat) ∈ run := by
    by_contra hns
    rw [List.count_eq_zero.mpr hns] at hcnt
    omega
  have hpre10 : ∀ u ∈ pre, u ≠ 10 := by
    intro u hu
    rw [← hpre] at hu
    have hmu := List.mem_takeWhile_imp hu
    simpa using hmu
  have h10run2 : (10 : Nat) ∈ run2 := by
    rcases List.mem_append.mp (hpresplit ▸ h10run) with hin | hin
    · exact absurd rfl (hpre10 10 hin)
    · exact hin
  have hk1 : 1 ≤ upToLastNl run2 := upToLastNl_pos run2 h10run2
  have hkle : upToLastNl run2 ≤ run2.length := upToLastNl_le run2
  have hr2pos : 1 ≤ run2.length := by
    cases run2 with
    | nil => simp at h10run2
    | cons d r' => simp
  have hrevsplit : run.reverse = run2.reverse ++ pre.reverse := by
    rw [← hpresplit, List.reverse_append]
  have hpost_shift : run.reverse.takeWhile (fun u => u != 10) =
      run2.reverse.takeWhile (fun u => u != 10) := by
    rw [hrevsplit]
    exact takeWhile_append_of_memF _ _ _
      ⟨10, by rw [List.mem_reverse]; exact h10run2, by simp⟩
  refine ⟨pre, run2.take (upToLastNl run2), run2.drop (upToLastNl run2), ?_, ?_, ?_, ?_⟩
  · rw [List.take_append_drop, hpresplit]
  · unfold squashRun
    rw [if_pos hcnt, hpost_shift, hpre, drop_upToLastNl run2]
  · intro u hu
    have hm2 : u ∈ run2 := List.take_subset _ _ hu
    exact hpresplit ▸ List.mem_append_right _ hm2
  · intro hnil
    have hlen := congrArg List.length hnil
    rw [List.length_take] at hlen
    simp only [List.length_nil] at hlen
    omega

theorem collRel_norm_aux :
    ∀ (N : Nat) (l : List Nat), l.length ≤ N → CollRel l (normWs l) := by
  intro N
  induction N with
  | zero =>
    intro l hl
    have hnil : l = [] := List.length_eq_zero.mp (Nat.le_zero.mp hl)
    rw [hnil]
    exact CollRel.nil
  | succ N ih =>
    intro l hl
    cases l with
    | nil => exact CollRel.nil
    | cons c tl =>
      by_cases hws : isWsU c = true
      · have hsplit : (c :: tl).takeWhile isWsU ++ (c :: tl).dropWhile isWsU = c :: tl :=
          List.takeWhile_append_dropWhile _ _
        have hrunws : ∀ u ∈ (c :: tl).takeWhile isWsU, isWsU u = true :=
          fun u hu => List.mem_takeWhile_imp hu
        have hrun_ne : (c :: tl).takeWhile isWsU ≠ [] := by
          rw [List.takeWhile_cons, if_pos hws]
          simp
        have hrest1 : ∀ u ∈ ((c :: tl).dropWhile isWsU).take 1, isWsU u = false := by
          intro u hu
          cases hr : (c :: tl).dropWhile isWsU with
          | nil => rw [hr] at hu; simp at hu
          | cons d r' =>
            rw [hr] at hu
            simp at hu
            rw [hu]
            exact dropWhile_head_false isWsU (c :: tl) d r' hr
        have hrestN : ((c :: tl).dropWhile isWsU).length ≤ N := by
          have hh : ((c :: tl).dropWhile isWsU).length ≤ tl.length := by
            rw [List.dropWhile_cons, if_pos hws]
            exact length_dropWhileU _ tl
          rw [List.length_cons] at hl
          omega
        have hn1 : normWs (c :: tl) =
            squashRun ((c :: tl).takeWhile isWsU) ++
              normWs ((c :: tl).dropWhile isWsU) := by
          conv_lhs => rw [← hsplit]
          exact norm_ws_head _ _ hrunws hrun_ne hrest1
        have hcr : CollRel ((c :: tl).takeWhile isWsU ++ (c :: tl).dropWhile isWsU)
            (squashRun ((c :: tl).takeWhile isWsU) ++
              normWs ((c :: tl).dropWhile isWsU)) := by
          by_cases hcnt : 3 ≤ ((c :: tl).takeWhile isWsU).count 10
          · obtain ⟨pre, core, post, hrun_eq, hsq, hcore_sub, hcore_ne⟩ :=
              squash_decomp _ hcnt
            rw [hsq]
            conv_lhs => rw [hrun_eq]
            have hL : (pre ++ (core ++ post)) ++ (c :: tl).dropWhile isWsU =
                pre ++ (core ++ (post ++ (c :: tl).dropWhile isWsU)) := by
              simp [List.append_assoc]
            have hR : ((pre ++ [10, 10]) ++ post) ++ normWs ((c :: tl).dropWhile isWsU) =
                pre ++ (10 :: 10 :: (post ++ normWs ((c :: tl).dropWhile isWsU))) := by
              simp [List.append_assoc]
            rw [hL, hR]
            refine collRel_append_left pre ?_
            exact CollRel.coll core _ _
              (fun u hu => hrunws u (hcore_sub u hu)) hcore_ne
              (collRel_append_left post (ih _ hrestN))
          · rw [squash_low _ (by omega)]
            exact collRel_append_left _ (ih _ hrestN)
        rw [hsplit] at hcr
        rw [hn1]
        exact hcr
      · have hc : isWsU c = false := Bool.eq_false_iff.mpr hws
        rw [norm_cons_nonws c tl hc]
        refine CollRel.copy c tl (normWs tl) (ih tl ?_)
        rw [List.length_cons] at hl
        omega

theorem collRel_norm (l : List Nat) : CollRel l (normWs l) :=
  collRel_norm_aux l.length l le_rfl

theorem stripPre_eq : ∀ (p l r : List Nat), stripPre p l = some r → l = p ++ r := by
  intro p
  induction p with
  | nil =>
    intro l r h
    simp [stripPre] at h
    rw [h]
    rfl
  | cons c ps ih =>
    intro l r h
    cases l with
    | nil => simp [stripPre] at h
    | cons d tl =>
      unfold stripPre at h
      by_cases hcd : c = d
      · rw [if_pos hcd] at h
        have htl := ih tl r h
        rw [htl, hcd]
        rfl
      · rw [if_neg hcd] at h
        exact absurd h (by simp)

/-- Transport of a newline-free literal prefix along the collapse relation. -/
theorem collRel_strip (pat : List Nat) (h10 : (10 : Nat) ∉ pat) :
    ∀ (s t t₂ : List Nat), CollRel s t → stripPre pat t = some t₂ →
      ∃ s₂, stripPre pat s = some s₂ ∧ CollRel s₂ t₂ := by
  induction pat with
  | nil =>
    intro s t t₂ h hsp
    simp [stripPre] at hsp
    exact ⟨s, rfl, hsp ▸ h⟩
  | cons c ps ih =>
    intro s t t₂ h hsp
    have h10' : (10 : Nat) ∉ ps := fun hm => h10 (by simp [hm])
    have hc10 : c ≠ 10 := fun he => h10 (by rw [← he]; simp)
    cases t with
    | nil => simp [stripPre] at hsp
    | cons d t' =>
      unfold stripPre at hsp
      by_cases hcd : c = d
      · rw [if_pos hcd] at hsp
        cases h with
        | copy e s' t'' h' =>
          obtain ⟨s₂, hsp2, hrel2⟩ := ih h10' s' t' t₂ h' hsp
          refine ⟨s₂, ?_, hrel2⟩
          unfold stripPre
          rw [if_pos hcd]
          exact hsp2
        | coll w s' t'' hw hne h' =>
          exact absurd hcd hc10
      · rw [if_neg hcd] at hsp
        exact absurd hsp (by simp)

theorem collRel_head41 (s t t₃ : List Nat) (h : CollRel s t) (ht : t = 41 :: t₃) :
    ∃ s₃, s = 41 :: s₃ ∧ CollRel s₃ t₃ := by
  cases h with
  | nil => exact absurd ht (by simp)
  | copy e s' t'' h' =>
    injection ht with h1 h2
    exact ⟨s', by rw [h1], h2 ▸ h'⟩
  | coll w s' t'' hw hne h' =>
    injection ht with h1 h2
    exact absurd h1 (by omega)

/-- Transport of a "no `)` until the closing `)`" segment along the collapse
relation. -/
theorem collRel_mid41_aux :
    ∀ (N : Nat) (a : List Nat), a.length ≤ N →
      ∀ (s t t₃ : List Nat), CollRel s t → t = a ++ 41 :: t₃ →
        (∀ u ∈ a, u ≠ 41) →
        ∃ as s₃, s = as ++ 41 :: s₃ ∧ (∀ u ∈ as, u ≠ 41) ∧ (a ≠ [] → as ≠ []) ∧
          CollRel s₃ t₃ := by
  intro N
  induction N with
  | zero =>
    intro a hN s t t₃ h ht ha
    have hnil : a = [] := List.length_eq_zero.mp (Nat.le_zero.mp hN)
    rw [hnil, List.nil_append] at ht
    obtain ⟨s₃, hs, hrel⟩ := collRel_head41 s t t₃ h ht
    exact ⟨[], s₃, by rw [hs]; rfl, by simp, fun hne => absurd hnil hne, hrel⟩
  | succ N ih =>
    intro a hN s t t₃ h ht ha
    cases a with
    | nil =>
      rw [List.nil_append] at ht
      obtain ⟨s₃, hs, hrel⟩ := collRel_head41 s t t₃ h ht
      exact ⟨[], s₃, by rw [hs]; rfl, by simp, fun hne => absurd rfl hne, hrel⟩
    | cons c a' =>
      rw [List.cons_append] at ht
      cases h with
      | nil => exact absurd ht (by simp)
      | copy e s' t'' h' =>
        injection ht with h1 h2
        obtain ⟨as, s₃, hs, has41, hne', hrel⟩ := ih a' (by simp at hN; omega) s' t'' t₃
          h' h2 (fun u hu => ha u (by simp [hu]))
        refine ⟨e :: as, s₃, by rw [hs]; rfl, ?_, fun _ => by simp, hrel⟩
        intro u hu
        rcases List.mem_cons.mp hu with he | hm
        · rw [he, h1]
          exact ha c (by simp)
        · exact has41 u hm
      | coll w s' t'' hw hne h' =>
        injection ht with h1 h2
        cases a' with
        | nil =>
          rw [List.nil_append] at h2
          injection h2 with h3 _
          exact absurd h3 (by omega)
        | cons c' a'' =>
          rw [List.cons_append] at h2
          injection h2 with h3 h4
          obtain ⟨as, s₃, hs, has41, hne'', hrel⟩ := ih a'' (by simp at hN; omega) s' t'' t₃
            h' h4 (fun u hu => ha u (by simp [hu]))
          refine ⟨w ++ as, s₃, by rw [hs, List.append_assoc], ?_, ?_, hrel⟩
          · intro u hu
            rcases List.mem_append.mp hu with hm | hm
            · intro he
              rw [he] at hm
              exact absurd (hw 41 hm) (by decide)
            · exact has41 u hm
          · intro _ hwas
            exact hne (List.append_eq_nil.mp hwas).1

theorem collRel_mid41 (s t a t₃ : List Nat) (h : CollRel s t) (ht : t = a ++ 41 :: t₃)
    (ha : ∀ u ∈ a, u ≠ 41) :
    ∃ as s₃, s = as ++ 41 :: s₃ ∧ (∀ u ∈ as, u ≠ 41) ∧ (a ≠ [] → as ≠ []) ∧
      CollRel s₃ t₃ :=
  collRel_mid41_aux a.length a le_rfl s t t₃ h ht ha

/-- Transport of a whitespace segment (up to the next non-whitespace unit)
along the collapse relation. -/
theorem collRel_ws_aux :
    ∀ (N : Nat) (wt : List Nat), wt.length ≤ N →
      ∀ (s t t₃ : List Nat), CollRel s t → t = wt ++ t₃ →
        (∀ u ∈ wt, isWsU u = true) →
        (∀ u ∈ t₃.take 1, isWsU u = false) →
        ∃ ws s₃, s = ws ++ s₃ ∧ (∀ u ∈ ws, isWsU u = true) ∧ CollRel s₃ t₃ := by
  intro N
  induction N with
  | zero =>
    intro wt hN s t t₃ h ht hws ht₃
    have hnil : wt = [] := List.length_eq_zero.mp (Nat.le_zero.mp hN)
    rw [hnil, List.nil_append] at ht
    exact ⟨[], s, by rfl, by simp, ht ▸ h⟩
  | succ N ih =>
    intro wt hN s t t₃ h ht hws ht₃
    cases wt with
    | nil =>
      rw [List.nil_append] at ht
      exact ⟨[], s, by rfl, by simp, ht ▸ h⟩
    | cons c wt' =>
      rw [List.cons_append] at ht
      cases h with
      | nil => exact absurd ht (by simp)
      | copy e s' t'' h' =>
        injection ht with h1 h2
        obtain ⟨ws, s₃, hs, hwsws, hrel⟩ := ih wt' (by simp at hN; omega) s' t'' t₃
          h' h2 (fun u hu => hws u (by simp [hu])) ht₃
        refine ⟨e :: ws, s₃, by rw [hs]; rfl, ?_, hrel⟩
        intro u hu
        rcases List.mem_cons.mp hu with he | hm
        · rw [he, h1]
          exact hws c (by simp)
        · exact hwsws u hm
      | coll w s' t'' hw hne h' =>
        injection ht with h1 h2
        cases wt' with
        | nil =>
          rw [List.nil_append] at h2
          have hbad := ht₃ 10 (by rw [← h2]; simp)
          exact absurd hbad (by decide)
        | cons c' wt'' =>
          rw [List.cons_append] at h2
          injection h2 with h3 h4
          obtain ⟨ws, s₃, hs, hwsws, hrel⟩ := ih wt'' (by simp at hN; omega) s' t'' t₃
            h' h4 (fun u hu => hws u (by simp [hu])) ht₃
          refine ⟨w ++ ws, s₃, by rw [hs, List.append_assoc], ?_, hrel⟩
          intro u hu
          rcases List.mem_append.mp hu with hm | hm
          · exact hw u hm
          · exact hwsws u hm

theorem collRel_ws (s t wt t₃ : List Nat) (h : CollRel s t) (ht : t = wt ++ t₃)
    (hws : ∀ u ∈ wt, isWsU u = true) (ht₃ : ∀ u ∈ t₃.take 1, isWsU u = false) :
    ∃ ws s₃, s = ws ++ s₃ ∧ (∀ u ∈ ws, isWsU u = true) ∧ CollRel s₃ t₃ :=
  collRel_ws_aux wt.length wt le_rfl s t t₃ h ht hws ht₃

theorem take1_append (a b : List Nat) (ha : a ≠ []) : (a ++ b).take 1 = a.take 1 := by
  cases a with
  | nil => exact absurd rfl ha
  | cons c a' => rfl

/-!  Shape inversion and construction for each deobfuscation matcher. -/

theorem matchCharCall_inv (t : List Nat) (h : (matchCharCall t).isSome = true) :
    ∃ args t₃, t = lit "string.char(" ++ (args ++ 41 :: t₃) ∧ args ≠ [] ∧
      ∀ u ∈ args, u ≠ 41 := by
  unfold matchCharCall at h
  cases hsp : stripPre (lit "string.char(") t with
  | none => rw [hsp] at h; simp at h
  | some rest =>
    rw [hsp] at h
    by_cases hargs : rest.takeWhile (fun u => u != 41) = []
    · simp [hargs] at h
    · simp only [if_neg hargs] at h
      rw [drop_length_takeWhile] at h
      cases hdrop : rest.dropWhile (fun u => u != 41) with
      | nil => rw [hdrop] at h; simp at h
      | cons d r2 =>
        have hd : d = 41 := by
          have hdf := dropWhile_head_false (fun u => u != 41) rest d r2 hdrop
          simpa using hdf
        refine ⟨rest.takeWhile (fun u => u != 41), r2, ?_, hargs, ?_⟩
        · rw [stripPre_eq _ _ _ hsp]
          congr 1
          conv_lhs => rw [← List.takeWhile_append_dropWhile (fun u => u != 41) rest]
          rw [hdrop, hd]
        · intro u hu
          have hmu := List.mem_takeWhile_imp hu
          simpa using hmu

theorem matchCharCall_mk (args t₃ : List Nat) (hne : args ≠ [])
    (h41 : ∀ u ∈ args, u ≠ 41) :
    (matchCharCall (lit "string.char(" ++ (args ++ 41 :: t₃))).isSome = true := by
  unfold matchCharCall
  rw [stripPre_append]
  have h1 : (args ++ 41 :: t₃).takeWhile (fun u => u != 41) = args :=
    takeWhile_append_stop _ args (41 :: t₃)
      (fun u hu => by simpa using h41 u hu) (by simp)
  simp only [h1, if_neg hne, List.drop_left]
  rfl

theorem matchHexVar_inv (t : List Nat) (h : (matchHexVar t).isSome = true) :
    ∃ run t₃, t = lit "_0x" ++ (run ++ t₃) ∧ run ≠ [] ∧
      ∀ u ∈ run, isHexU u = true := by
  unfold matchHexVar at h
  cases hsp : stripPre (lit "_0x") t with
  | none => rw [hsp] at h; simp at h
  | some rest =>
    rw [hsp] at h
    by_cases hrun : rest.takeWhile isHexU = []
    · simp [hrun] at h
    · refine ⟨rest.takeWhile isHexU, rest.dropWhile isHexU, ?_, hrun,
        fun u hu => List.mem_takeWhile_imp hu⟩
      rw [stripPre_eq _ _ _ hsp, List.takeWhile_append_dropWhile]

theorem matchHexVar_mk (run t₃ : List Nat) (hne : run ≠ [])
    (hhex : ∀ u ∈ run.take 1, isHexU u = true) :
    (matchHexVar (lit "_0x" ++ (run ++ t₃))).isSome = true := by
  unfold matchHexVar
  rw [stripPre_append]
  cases run with
  | nil => exact absurd rfl hne
  | cons c r' =>
    rw [List.cons_append]
    have h1 : (c :: (r' ++ t₃)).takeWhile isHexU = c :: (r' ++ t₃).takeWhile isHexU := by
      rw [List.takeWhile_cons, hhex c (by simp), if_pos rfl]
    simp only [h1]
    simp

theorem matchLitWsLit_inv (a b t : List Nat) (h : (matchLitWsLit a b t).isSome = true) :
    ∃ w rest2, t = a ++ (w ++ (b ++ rest2)) ∧ ∀ u ∈ w, isWsU u = true := by
  unfold matchLitWsLit at h
  cases hsp : stripPre a t with
  | none => rw [hsp] at h; simp at h
  | some rest =>
    rw [hsp] at h
    simp only [drop_length_takeWhile] at h
    cases hsp2 : stripPre b (rest.dropWhile isWsU) with
    | none => rw [hsp2] at h; simp at h
    | some r2 =>
      refine ⟨rest.takeWhile isWsU, r2, ?_, fun u hu => List.mem_takeWhile_imp hu⟩
      rw [stripPre_eq _ _ _ hsp]
      congr 1
      rw [← stripPre_eq _ _ _ hsp2]
      exact (List.takeWhile_append_dropWhile _ _).symm

theorem matchLitWsLit_mk (a b w rest2 : List Nat) (hw : ∀ u ∈ w, isWsU u = true)
    (hbne : b ≠ []) (hbh : ∀ u ∈ b.take 1, isWsU u = false) :
    (matchLitWsLit a b (a ++ (w ++ (b ++ rest2)))).isSome = true := by
  unfold matchLitWsLit
  rw [stripPre_append]
  have h1 : (w ++ (b ++ rest2)).takeWhile isWsU = w := by
    refine takeWhile_append_stop _ w (b ++ rest2) hw ?_
    intro u hu
    rw [take1_append b rest2 hbne] at hu
    exact hbh u hu
  simp only [h1, List.drop_left, stripPre_append]
  rfl

theorem matchPairCall_inv (t : List Nat) (h : (matchPairCall t).isSome = true) :
    ∃ d1 w1 w2 d2 t₃,
      t = lit "string.char(" ++ (d1 ++ 41 :: (w1 ++ (46 :: 46 :: (w2 ++
          (lit "string.char(" ++ (d2 ++ 41 :: t₃)))))) ∧
      d1 ≠ [] ∧ (∀ u ∈ d1, isDigitU u = true) ∧
      (∀ u ∈ w1, isWsU u = true) ∧ (∀ u ∈ w2, isWsU u = true) ∧
      d2 ≠ [] ∧ (∀ u ∈ d2, isDigitU u = true) := by
  unfold matchPairCall at h
  cases hs1 : stripPre (lit "string.char(") t with
  | none => rw [hs1] at h; simp at h
  | some r1 =>
    rw [hs1] at h
    by_cases hd1 : r1.takeWhile isDigitU = []
    · simp [hd1] at h
    · simp only [if_neg hd1] at h
      rw [drop_length_takeWhile] at h
      cases hs2 : stripPre [41] (r1.dropWhile isDigitU) with
      | none => rw [hs2] at h; simp at h
      | some r2 =>
        rw [hs2] at h
        simp only [drop_length_takeWhile] at h
        cases hs3 : stripPre [46, 46] (r2.dropWhile isWsU) with
        | none => rw [hs3] at h; simp at h
        | some r3 =>
          rw [hs3] at h
          simp only [drop_length_takeWhile] at h
          cases hs4 : stripPre (lit "string.char(") (r3.dropWhile isWsU) with
          | none => rw [hs4] at h; simp at h
          | some r4 =>
            rw [hs4] at h
            by_cases hd2 : r4.takeWhile isDigitU = []
            · simp [hd2] at h
            · simp only [if_neg hd2] at h
              cases hs5 : stripPre [41] (r4.dropWhile isDigitU) with
              | none => rw [hs5] at h; simp at h
              | some r5 =>
                refine ⟨r1.takeWhile isDigitU, r2.takeWhile isWsU, r3.takeWhile isWsU,
                  r4.takeWhile isDigitU, r5, ?_, hd1,
                  fun u hu => List.mem_takeWhile_imp hu,
                  fun u hu => List.mem_takeWhile_imp hu,
                  fun u hu => List.mem_takeWhile_imp hu,
                  hd2, fun u hu => List.mem_takeWhile_imp hu⟩
                have e1 : r1.dropWhile isDigitU = 41 :: r2 := by
                  have he := stripPre_eq _ _ _ hs2
                  simpa using he
                have e2 : r2.dropWhile isWsU = 46 :: 46 :: r3 := by
                  have he := stripPre_eq _ _ _ hs3
                  simpa using he
                have e3 : r3.dropWhile isWsU = lit "string.char(" ++ r4 :=
                  stripPre_eq _ _ _ hs4
                have e4 : r4.dropWhile isDigitU = 41 :: r5 := by
                  have he := stripPre_eq _ _ _ hs5
                  simpa using he
                rw [stripPre_eq _ _ _ hs1]
                congr 1
                conv_lhs => rw [← List.takeWhile_append_dropWhile isDigitU r1, e1,
                  ← List.takeWhile_append_dropWhile isWsU r2, e2,
                  ← List.takeWhile_append_dropWhile isWsU r3, e3,
                  ← List.takeWhile_append_dropWhile isDigitU r4, e4]

theorem matchPairCall_mk (d1 w1 w2 d2 t₃ : List Nat)
    (hd1ne : d1 ≠ []) (hd1 : ∀ u ∈ d1, isDigitU u = true)
    (hw1 : ∀ u ∈ w1, isWsU u = true) (hw2 : ∀ u ∈ w2, isWsU u = true)
    (hd2ne : d2 ≠ []) (hd2 : ∀ u ∈ d2, isDigitU u = true) :
    (matchPairCall (lit "string.char(" ++ (d1 ++ 41 :: (w1 ++ (46 :: 46 :: (w2 ++
        (lit "string.char(" ++ (d2 ++ 41 :: t₃)))))))).isSome = true := by
  unfold matchPairCall
  rw [stripPre_append]
  have e1 : (d1 ++ 41 :: (w1 ++ (46 :: 46 :: (w2 ++ (lit "string.char(" ++
      (d2 ++ 41 :: t₃)))))).takeWhile isDigitU = d1 :=
    takeWhile_append_stop _ d1 _ hd1
      (by intro u hu; simp at hu; rw [hu]; decide)
  simp only [e1, if_neg hd1ne, List.drop_left]
  rw [show stripPre [41] (41 :: (w1 ++ (46 :: 46 :: (w2 ++ (lit "string.char(" ++
      (d2 ++ 41 :: t₃)))))) = some (w1 ++ (46 :: 46 :: (w2 ++ (lit "string.char(" ++
      (d2 ++ 41 :: t₃))))) from stripPre_append [41] _]
  have e2 : (w1 ++ (46 :: 46 :: (w2 ++ (lit "string.char(" ++
      (d2 ++ 41 :: t₃))))).takeWhile isWsU = w1 :=
    takeWhile_append_stop _ w1 _ hw1
      (by intro u hu; simp at hu; rw [hu]; decide)
  simp only [e2, List.drop_left]
  rw [show stripPre [46, 46] (46 :: 46 :: (w2 ++ (lit "string.char(" ++
      (d2 ++ 41 :: t₃)))) = some (w2 ++ (lit "string.char(" ++ (d2 ++ 41 :: t₃)))
      from stripPre_append [46, 46] _]
  have e3 : (w2 ++ (lit "string.char(" ++ (d2 ++ 41 :: t₃))).takeWhile isWsU = w2 := by
    refine takeWhile_append_stop _ w2 _ hw2 ?_
    intro u hu
    rw [take1_append _ _ (by decide)] at hu
    rw [show (lit "string.char(").take 1 = [115] from by decide] at hu
    simp at hu
    rw [hu]
    decide
  simp only [e3, List.drop_left]
  rw [stripPre_append]
  have e4 : (d2 ++ 41 :: t₃).takeWhile isDigitU = d2 :=
    takeWhile_append_stop _ d2 _ hd2
      (by intro u hu; simp at hu; rw [hu]; decide)
  simp only [e4, if_neg hd2ne, List.drop_left]
  rw [show stripPre [41] (41 :: t₃) = some t₃ from stripPre_append [41] _]
  rfl

/-!  Transport of each idiom matcher backwards along the collapse relation:
a match in the collapsed text yields a match in the original. -/

theorem transport_charCall (s t : List Nat) (h : CollRel s t)
    (hm : (matchCharCall t).isSome = true) : (matchCharCall s).isSome = true := by
  obtain ⟨args, t₃, ht, hne, h41⟩ := matchCharCall_inv t hm
  have h10lit : (10 : Nat) ∉ lit "string.char(" := by decide
  obtain ⟨s₂, hsp, hrel⟩ := collRel_strip _ h10lit s t _ h
    (by rw [ht]; exact stripPre_append _ _)
  obtain ⟨as, s₃, hs₂, has41, hasne, hrel₂⟩ := collRel_mid41 s₂ _ args t₃ hrel rfl h41
  have hs : s = lit "string.char(" ++ (as ++ 41 :: s₃) := by
    rw [stripPre_eq _ _ _ hsp, hs₂]
  rw [hs]
  exact matchCharCall_mk as s₃ (hasne hne) has41

theorem transport_hexVar (s t : List Nat) (h : CollRel s t)
    (hm : (matchHexVar t).isSome = true) : (matchHexVar s).isSome = true := by
  obtain ⟨run, t₃, ht, hne, hhex⟩ := matchHexVar_inv t hm
  have h10lit : (10 : Nat) ∉ lit "_0x" := by decide
  obtain ⟨s₂, hsp, hrel⟩ := collRel_strip _ h10lit s t _ h
    (by rw [ht]; exact stripPre_append _ _)
  have h10run : (10 : Nat) ∉ run := by
    intro hmem
    exact absurd (hhex 10 hmem) (by decide)
  obtain ⟨s₃, hsp2, hrel₂⟩ := collRel_strip run h10run s₂ _ t₃ hrel (stripPre_append _ _)
  have hs : s = lit "_0x" ++ (run ++ s₃) := by
    rw [stripPre_eq _ _ _ hsp, stripPre_eq _ _ _ hsp2]
  rw [hs]
  exact matchHexVar_mk run s₃ hne (fun u hu => hhex u (List.take_subset _ _ hu))

theorem transport_litWsLit (a b : List Nat)
    (ha10 : (10 : Nat) ∉ a) (hb10 : (10 : Nat) ∉ b) (hbne : b ≠ [])
    (hbh : ∀ u ∈ b.take 1, isWsU u = false)
    (s t : List Nat) (h : CollRel s t)
    (hm : (matchLitWsLit a b t).isSome = true) :
    (matchLitWsLit a b s).isSome = true := by
  obtain ⟨w, rest2, ht, hw⟩ := matchLitWsLit_inv a b t hm
  obtain ⟨s₂, hsp, hrel⟩ := collRel_strip a ha10 s t _ h
    (by rw [ht]; exact stripPre_append _ _)
  obtain ⟨ws, s₃, hs₂, hwsws, hrel₂⟩ := collRel_ws s₂ _ w (b ++ rest2) hrel rfl hw
    (by intro u hu; rw [take1_append b rest2 hbne] at hu; exact hbh u hu)
  obtain ⟨s₄, hsp2, hrel₃⟩ := collRel_strip b hb10 s₃ _ rest2 hrel₂ (stripPre_append _ _)
  have hs : s = a ++ (ws ++ (b ++ s₄)) := by
    rw [stripPre_eq _ _ _ hsp, hs₂, stripPre_eq _ _ _ hsp2]
  rw [hs]
  exact matchLitWsLit_mk a b ws s₄ hwsws hbne hbh

theorem transport_pairCall (s t : List Nat) (h : CollRel s t)
    (hm : (matchPairCall t).isSome = true) : (matchPairCall s).isSome = true := by
  obtain ⟨d1, w1, w2, d2, t₃, ht, hd1ne, hd1, hw1, hw2, hd2ne, hd2⟩ :=
    matchPairCall_inv t hm
  have h10lit : (10 : Nat) ∉ lit "string.char(" := by decide
  have h10d1 : (10 : Nat) ∉ d1 := fun hmem => absurd (hd1 10 hmem) (by decide)
  have h10d2 : (10 : Nat) ∉ d2 := fun hmem => absurd (hd2 10 hmem) (by decide)
  obtain ⟨s1, hp1, hr1⟩ := collRel_strip _ h10lit s t _ h
    (by rw [ht]; exact stripPre_append _ _)
  obtain ⟨s2, hp2, hr2⟩ := collRel_strip d1 h10d1 s1 _ _ hr1 (stripPre_append _ _)
  obtain ⟨s3, hs3, hr3⟩ := collRel_head41 s2 _ _ hr2 rfl
  obtain ⟨ws1, s4, hs4, hws1, hr4⟩ := collRel_ws s3 _ w1
    (46 :: 46 :: (w2 ++ (lit "string.char(" ++ (d2 ++ 41 :: t₃)))) hr3 rfl hw1
    (by intro u hu; simp at hu; rw [hu]; decide)
  obtain ⟨s5, hp5, hr5⟩ := collRel_strip [46, 46] (by decide) s4 _ _ hr4
    (stripPre_append _ _)
  obtain ⟨ws2, s6, hs6, hws2, hr6⟩ := collRel_ws s5 _ w2
    (lit "string.char(" ++ (d2 ++ 41 :: t₃)) hr5 rfl hw2
    (by
      intro u hu
      rw [take1_append _ _ (by decide),
        show (lit "string.char(").take 1 = [115] from by decide] at hu
      simp at hu
      rw [hu]
      decide)
  obtain ⟨s7, hp7, hr7⟩ := collRel_strip _ h10lit s6 _ _ hr6 (stripPre_append _ _)
  obtain ⟨s8, hp8, hr8⟩ := collRel_strip d2 h10d2 s7 _ _ hr7 (stripPre_append _ _)
  obtain ⟨s9, hs9, hr9⟩ := collRel_head41 s8 _ _ hr8 rfl
  have hs : s = lit "string.char(" ++ (d1 ++ 41 :: (ws1 ++ (46 :: 46 :: (ws2 ++
      (lit "string.char(" ++ (d2 ++ 41 :: s9)))))) := by
    rw [stripPre_eq _ _ _ hp1, stripPre_eq _ _ _ hp2, hs3, hs4,
      stripPre_eq _ _ _ hp5, hs6, stripPre_eq _ _ _ hp7, stripPre_eq _ _ _ hp8, hs9]
    rfl
  rw [hs]
  exact matchPairCall_mk d1 ws1 ws2 d2 s9 hd1ne hd1 hws1 hws2 hd2ne hd2

theorem drop_append_len : ∀ (w s' : List Nat) (m : Nat),
    (w ++ s').drop (w.length + m) = s'.drop m := by
  intro w
  induction w with
  | nil => intro s' m; simp
  | cons c w' ih =>
    intro s' m
    rw [List.cons_append, List.length_cons,
      show w'.length + 1 + m = w'.length + m + 1 from by omega, List.drop_succ_cons]
    exact ih s' m

/-- A suffix of the collapsed text that does not start with a newline has a
related suffix of the original text. -/
theorem collRel_suffix {s t : List Nat} (h : CollRel s t) :
    ∀ (n : Nat), (∀ u ∈ (t.drop n).take 1, u ≠ 10) →
      ∃ m, CollRel (s.drop m) (t.drop n) := by
  induction h with
  | nil =>
    intro n _
    exact ⟨0, by simp only [List.drop_nil]; exact CollRel.nil⟩
  | copy c s' t' h' ih =>
    intro n hcond
    cases n with
    | zero => exact ⟨0, CollRel.copy c s' t' h'⟩
    | succ n =>
      rw [List.drop_succ_cons] at hcond ⊢
      obtain ⟨m, hm⟩ := ih n hcond
      exact ⟨m + 1, by rw [List.drop_succ_cons]; exact hm⟩
  | coll w s' t' hw hne h' ih =>
    intro n hcond
    cases n with
    | zero =>
      exfalso
      exact hcond 10 (by simp) rfl
    | succ n =>
      cases n with
      | zero =>
        exfalso
        exact hcond 10 (by simp) rfl
      | succ n =>
        rw [List.drop_succ_cons, List.drop_succ_cons] at hcond ⊢
        obtain ⟨m, hm⟩ := ih n hcond
        refine ⟨w.length + m, ?_⟩
        rw [drop_append_len w s' m]
        exact hm

/-!  Each idiom's match never starts with a newline. -/

theorem matchCharCall_head (t : List Nat) (h : (matchCharCall t).isSome = true) :
    ∀ u ∈ t.take 1, u ≠ 10 := by
  obtain ⟨args, t₃, ht, -, -⟩ := matchCharCall_inv t h
  intro u hu
  rw [ht, take1_append _ _ (by decide),
    show (lit "string.char(").take 1 = [115] from by decide] at hu
  simp at hu
  rw [hu]
  omega

theorem matchPairCall_head (t : List Nat) (h : (matchPairCall t).isSome = true) :
    ∀ u ∈ t.take 1, u ≠ 10 := by
  obtain ⟨d1, w1, w2, d2, t₃, ht, -, -, -, -, -, -⟩ := matchPairCall_inv t h
  intro u hu
  rw [ht, take1_append _ _ (by decide),
    show (lit "string.char(").take 1 = [115] from by decide] at hu
  simp at hu
  rw [hu]
  omega

theorem matchHexVar_head (t : List Nat) (h : (matchHexVar t).isSome = true) :
    ∀ u ∈ t.take 1, u ≠ 10 := by
  obtain ⟨run, t₃, ht, -, -⟩ := matchHexVar_inv t h
  intro u hu
  rw [ht, take1_append _ _ (by decide),
    show (lit "_0x").take 1 = [95] from by decide] at hu
  simp at hu
  rw [hu]
  omega

theorem matchLitWsLit_head (a b t : List Nat) (hane : a ≠ [])
    (ha10 : (10 : Nat) ∉ a) (h : (matchLitWsLit a b t).isSome = true) :
    ∀ u ∈ t.take 1, u ≠ 10 := by
  obtain ⟨w, rest2, ht, -⟩ := matchLitWsLit_inv a b t h
  intro u hu
  rw [ht, take1_append _ _ hane] at hu
  exact fun he => ha10 (by rw [← he]; exact List.take_subset _ _ hu)

/-!  Idiom-freedom is preserved by the whitespace normal form. -/

theorem transport_any_charCall (x : List Nat)
    (h : anyMatchB matchCharCall x = false) :
    anyMatchB matchCharCall (normWs x) = false := by
  cases hgoal : anyMatchB matchCharCall (normWs x) with
  | false => rfl
  | true =>
    exfalso
    obtain ⟨n, hn⟩ := anyMatchB_true_ex _ _ hgoal
    obtain ⟨m, hm⟩ := collRel_suffix (collRel_norm x) n (matchCharCall_head _ hn)
    have hsm := transport_charCall _ _ hm hn
    rw [anyMatchB_false_drop matchCharCall x h m] at hsm
    simp at hsm

theorem transport_any_pairCall (x : List Nat)
    (h : anyMatchB matchPairCall x = false) :
    anyMatchB matchPairCall (normWs x) = false := by
  cases hgoal : anyMatchB matchPairCall (normWs x) with
  | false => rfl
  | true =>
    exfalso
    obtain ⟨n, hn⟩ := anyMatchB_true_ex _ _ hgoal
    obtain ⟨m, hm⟩ := collRel_suffix (collRel_norm x) n (matchPairCall_head _ hn)
    have hsm := transport_pairCall _ _ hm hn
    rw [anyMatchB_false_drop matchPairCall x h m] at hsm
    simp at hsm

theorem transport_any_hexVar (x : List Nat)
    (h : anyMatchB matchHexVar x = false) :
    anyMatchB matchHexVar (normWs x) = false := by
  cases hgoal : anyMatchB matchHexVar (normWs x) with
  | false => rfl
  | true =>
    exfalso
    obtain ⟨n, hn⟩ := anyMatchB_true_ex _ _ hgoal
    obtain ⟨m, hm⟩ := collRel_suffix (collRel_norm x) n (matchHexVar_head _ hn)
    have hsm := transport_hexVar _ _ hm hn
    rw [anyMatchB_false_drop matchHexVar x h m] at hsm
    simp at hsm

theorem transport_any_litWsLit (a b : List Nat) (hane : a ≠ [])
    (ha10 : (10 : Nat) ∉ a) (hb10 : (10 : Nat) ∉ b) (hbne : b ≠ [])
    (hbh : ∀ u ∈ b.take 1, isWsU u = false)
    (x : List Nat) (h : anyMatchB (matchLitWsLit a b) x = false) :
    anyMatchB (matchLitWsLit a b) (normWs x) = false := by
  cases hgoal : anyMatchB (matchLitWsLit a b) (normWs x) with
  | false => rfl
  | true =>
    exfalso
    obtain ⟨n, hn⟩ := anyMatchB_true_ex _ _ hgoal
    obtain ⟨m, hm⟩ := collRel_suffix (collRel_norm x) n
      (matchLitWsLit_head a b _ hane ha10 hn)
    have hsm := transport_litWsLit a b ha10 hb10 hbne hbh _ _ hm hn
    rw [anyMatchB_false_drop (matchLitWsLit a b) x h m] at hsm
    simp at hsm

theorem noIdioms_norm (x : List Nat) (h : noIdiomsB x = true) :
    noIdiomsB (normWs x) = true := by
  have h6 := h
  simp only [noIdiomsB, Bool.and_eq_true, Bool.not_eq_true'] at h6 ⊢
  obtain ⟨⟨⟨⟨⟨h1, h2⟩, h3⟩, h4⟩, h5⟩, h6'⟩ := h6
  exact ⟨⟨⟨⟨⟨transport_any_charCall x h1, transport_any_pairCall x h2⟩,
    transport_any_hexVar x h3⟩,
    transport_any_litWsLit _ _ (by decide) (by decide) (by decide) (by decide)
      (by decide) x h4⟩,
    transport_any_litWsLit _ _ (by decide) (by decide) (by decide) (by decide)
      (by decide) x h5⟩,
    transport_any_litWsLit _ _ (by decide) (by decide) (by decide) (by decide)
      (by decide) x h6'⟩

/-- C7: on source text containing none of the recognized obfuscation idioms
(no `string.char` decode form of either shape, no generated-shape `_0x…`
identifier, no recognized dead-code statement), deobfuscation is idempotent
on the output text. -/
theorem c7_idempotent (s : List Nat) (h : noIdiomsB s = true) :
    (deobfuscateCode (deobfuscateCode s).outputCode).outputCode =
      (deobfuscateCode s).outputCode := by
  have h1 := deobf_noidioms s h
  have hcn : collapseWs s = normWs s := collapse_eq_norm s
  have h2 : noIdiomsB (normWs s) = true := noIdioms_norm s h
  have h3 := deobf_noidioms (normWs s) h2
  rw [h1]
  show (deobfuscateCode (collapseWs s)).outputCode = collapseWs s
  rw [hcn, h3]
  show collapseWs (normWs s) = normWs s
  rw [collapse_eq_norm (normWs s)]
  exact norm_idem s

/-- Witness for C7 at the concrete idiom-free program
`local x = 1\nprint(x)`. -/
theorem c7_idempotent_witness :
    (deobfuscateCode (deobfuscateCode (lit "local x = 1\nprint(x)")).outputCode).outputCode =
      (deobfuscateCode (lit "local x = 1\nprint(x)")).outputCode :=
  c7_idempotent (lit "local x = 1\nprint(x)") (by decide)

end LuaProc
